import Mathlib

/-!
# Verification of the cruise repository's two algorithmic cores

This file gives a shallow embedding, in Lean 4, of the two algorithms of the
`askscience/cruise` repository that the specification describes:

* the **tag-aware stream splitter**
  (`app/components/markdown_editor.py`, `MarkdownEditor.append_ai_stream_content`,
  `_flush_main_content_buffer`, `clear_ai_stream_buffer`; the study-mode copy
  `app/components/sidebar_widget.py`, `process_ai_chunk_study_mode` has
  character-for-character the same splitting logic, differing only in which UI
  widget each sink writes to), and

* the **lane packer**
  (`app/utils/app_utils.py`, `_distribute_annotations_to_zones`, together with
  the `max_bubble_width` computation of `get_dynamic_layout`).

Strings are modelled as `List Char`, Python floats as `ℚ` (exact arithmetic;
the claims under study are either exact identities or fail by amounts far
larger than any floating-point tolerance), Python ints as `ℤ`/`ℕ`.
The Python `while True:` re-scan loop of the splitter strictly shrinks its
buffer on every iteration; it is embedded with an explicit fuel parameter that
the entry point instantiates with `buffer.length + 1`, which is always enough
(each loop iteration consumes at least one buffered character).
-/

namespace Cruise

/-! ## Python string primitives used by the splitter -/

/-- The set of characters stripped by Python's `str.strip()` (and matched by
`\s` in `re` for `str` patterns): ASCII whitespace, the ASCII separator
controls, and the Unicode whitespace code points. -/
def isPySpace (c : Char) : Bool :=
  let n := c.toNat
  (0x09 ≤ n && n ≤ 0x0D) || (0x1C ≤ n && n ≤ 0x1F) || n = 0x20 ||
    n = 0x85 || n = 0xA0 || n = 0x1680 || (0x2000 ≤ n && n ≤ 0x200A) ||
    n = 0x2028 || n = 0x2029 || n = 0x202F || n = 0x205F || n = 0x3000

/-- Truthiness of Python's `s.strip()`: does `s` contain a non-whitespace
character? -/
def hasNonWS (l : List Char) : Bool :=
  l.any (fun c => !(isPySpace c))

/-- A character matched by the word-boundary regex `[\s\n.!?;,]+` of
`_flush_main_content_buffer`. -/
def isBoundaryChar (c : Char) : Bool :=
  isPySpace c || c = '.' || c = '!' || c = '?' || c = ';' || c = ','

/-- `matches[-1].end()` of the regex search in `_flush_main_content_buffer`:
the position just past the last boundary character, when one exists. -/
def lastBoundary (l : List Char) : Option ℕ :=
  (l.reverse.findIdx? isBoundaryChar).map (fun r => l.length - r)

/-- Python `s.find('<')`: index of the first `'<'`. -/
def findLt : List Char → Option ℕ
  | [] => none
  | c :: rest => if c = '<' then some 0 else (findLt rest).map (· + 1)

/-- Python `s.find(pat)` for a fixed non-empty pattern: the first index at
which `pat` occurs as a prefix of the corresponding suffix. -/
def findSub (pat : List Char) : List Char → Option ℕ
  | [] => if pat.isPrefixOf ([] : List Char) then some 0 else none
  | c :: rest =>
      if pat.isPrefixOf (c :: rest) then some 0 else (findSub pat rest).map (· + 1)

/-- The literal `<think>`. -/
def thinkOpen : List Char := "<think>".data

/-- The literal `</think>`. -/
def thinkClose : List Char := "</think>".data

/-! ## Splitter state and outputs

The mutable attributes of the Python object: `_ai_stream_buffer` (carry-over
buffer), `_inside_think_tags`, `_main_content_buffer`.  The two sinks
(`append_thinking_content` / `_append_to_main_editor`) are modelled as lists
of emissions, in emission order. -/

structure SplitState where
  buffer : List Char
  inside : Bool
  main : List Char
deriving DecidableEq, Repr

structure SplitOut where
  think : List (List Char)
  ans : List (List Char)
deriving DecidableEq, Repr

def emitThink (o : SplitOut) (t : List Char) : SplitOut :=
  { o with think := o.think ++ [t] }

def emitAns (o : SplitOut) (t : List Char) : SplitOut :=
  { o with ans := o.ans ++ [t] }

/-- `_flush_main_content_buffer(force_partial)`: returns the new
`_main_content_buffer` and the (at most one) emission to the answer sink. -/
def flushMain (force : Bool) (main : List Char) : List Char × Option (List Char) :=
  if main = [] then (main, none)
  else if force then ([], some main)
  else
    match lastBoundary main with
    | some b =>
        let content := main.take b
        (main.drop b, if content = [] then none else some content)
    | none =>
        if 100 < main.length then ([], some main) else (main, none)

/-- Apply a `flushMain` result to the output accumulator. -/
def applyFlush (out : SplitOut) : Option (List Char) → SplitOut
  | some t => emitAns out t
  | none => out

/-- The `before_lt.strip()` guard of the scanning branch: a non-blank
prefix before `'<'` is appended to the main buffer and force-flushed; a
blank one is dropped. -/
def beforeFlush (main before : List Char) (out : SplitOut) :
    List Char × SplitOut :=
  if hasNonWS before then
    ((flushMain true (main ++ before)).1,
      applyFlush out (flushMain true (main ++ before)).2)
  else (main, out)

/-- The `while True:` loop body of `append_ai_stream_content`, with explicit
fuel.  Every `continue` of the Python loop strictly shortens
`_ai_stream_buffer`, so fuel `buffer.length + 1` (supplied by `processChunk`)
never runs out. -/
def splitGo : ℕ → SplitState → SplitOut → SplitState × SplitOut
  | 0, st, out => (st, out)
  | fuel + 1, st, out =>
    if st.inside then
      match findSub thinkClose st.buffer with
      | some q =>
          splitGo fuel ⟨st.buffer.drop (q + 8), false, st.main⟩
            (if hasNonWS (st.buffer.take q) then
              emitThink out (st.buffer.take q) else out)
      | none =>
          (⟨[], true, st.main⟩,
            if hasNonWS st.buffer then emitThink out st.buffer else out)
    else
      match findLt st.buffer with
      | none =>
          if st.buffer = [] then (st, out)
          else
            (⟨[], false, (flushMain false (st.main ++ st.buffer)).1⟩,
              applyFlush out (flushMain false (st.main ++ st.buffer)).2)
      | some p =>
          if 7 ≤ (st.buffer.drop p).length &&
              thinkOpen.isPrefixOf (st.buffer.drop p) then
            splitGo fuel
              ⟨(st.buffer.drop p).drop 7, true,
                (beforeFlush st.main (st.buffer.take p) out).1⟩
              (beforeFlush st.main (st.buffer.take p) out).2
          else if (st.buffer.drop p).length < 7 then
            (⟨st.buffer.drop p, false,
                (beforeFlush st.main (st.buffer.take p) out).1⟩,
              (beforeFlush st.main (st.buffer.take p) out).2)
          else
            splitGo fuel
              ⟨(st.buffer.drop p).drop 1, false,
                (beforeFlush st.main (st.buffer.take p) out).1 ++ ['<']⟩
              (beforeFlush st.main (st.buffer.take p) out).2

/-- One call to `append_ai_stream_content(chunk)` from state `st` with
emissions so far `out`. -/
def processChunk (st : SplitState) (out : SplitOut) (c : List Char) :
    SplitState × SplitOut :=
  splitGo (st.buffer.length + c.length + 1) ⟨st.buffer ++ c, st.inside, st.main⟩ out

/-- The state installed by the `hasattr` initialisation on the first call. -/
def initState : SplitState := ⟨[], false, []⟩

def initOut : SplitOut := ⟨[], []⟩

/-- Feed a whole sequence of chunks. -/
def processChunks (chunks : List (List Char)) : SplitState × SplitOut :=
  chunks.foldl (fun p c => processChunk p.1 p.2 c) (initState, initOut)

/-- `clear_ai_stream_buffer`: the end-of-stream flush (only the main-content
buffer is flushed; the carry-over buffer is discarded). -/
def flushEnd (st : SplitState) (out : SplitOut) : SplitOut :=
  if st.main = [] then out
  else applyFlush out (flushMain true st.main).2

/-- Run the splitter on a chunk sequence followed by the end-of-stream
flush, and collect everything emitted to the two sinks. -/
def runSplitter (chunks : List (List Char)) : SplitOut :=
  flushEnd (processChunks chunks).1 (processChunks chunks).2

/-- Concatenation of a list of emissions. -/
def concatAll (l : List (List Char)) : List Char :=
  l.foldr (· ++ ·) []

/-! ## Lane packer

`_distribute_annotations_to_zones(annotations_with_indices, max_zones, rect)`
in `app/utils/app_utils.py`.  The `max_zones` argument is unused by the
function body.  Geometry is exact rational arithmetic; the caller-supplied
text measurement (`QFontMetrics.horizontalAdvance` and
`QFontMetrics.boundingRect(...).height()`) is an abstract parameter, as the
spec prescribes (`measure(text, max_width)`).  Annotation texts are drawn
from an abstract type `α`.  The Python `zone_assignments` dict is keyed by
the distinct original indices (the callers build them with `enumerate`); it
is modelled as the list of assignments in insertion order, each carrying its
original index. -/

structure LRect where
  width : ℤ
  height : ℤ
  top : ℤ
deriving DecidableEq, Repr

structure Annot (α : Type) where
  start_time : ℚ
  text : α

/-- The caller-supplied text-measurement interface (font metrics). -/
structure Measure (α : Type) where
  advance : α → ℤ
  boundHeight : α → ℤ → ℤ

structure ZoneAssignment where
  index : ℕ
  zone : ℕ
  x_position : ℚ
  width : ℚ
  y_position : ℚ
  height : ℚ
deriving DecidableEq, Repr

/-- All inputs of one invocation of the lane packer. -/
structure PackInput (α : Type) where
  fm : Measure α
  audio_duration : ℚ
  rect : LRect
  anns : List (ℕ × Annot α)

/-- `get_dynamic_layout(rect)['max_bubble_width']`:
`min(400, (rect.width() - 40) * 0.6)`. -/
def maxBubbleWidth (rect : LRect) : ℚ :=
  min 400 (((rect.width : ℚ) - 40) * (6 / 10))

/-- `available_width = max(1, rect.width() - (2 * margin) - header_width)`
with `margin = 30`, `header_width = 25`. -/
def availableWidth (rect : LRect) : ℚ :=
  max 1 ((rect.width : ℚ) - 2 * 30 - 25)

/-- One entry of the `precomputed` list. -/
structure PreItem where
  index : ℕ
  start_x : ℚ
  end_x : ℚ
  width : ℚ
  height : ℚ
deriving DecidableEq, Repr

/-- Stable insertion into a list sorted by `start_time` (an element is placed
after every element whose key is `≤` its own). -/
def insertByStart {α : Type} (x : ℕ × Annot α) :
    List (ℕ × Annot α) → List (ℕ × Annot α)
  | [] => [x]
  | b :: t =>
      if x.2.start_time ≤ b.2.start_time then x :: b :: t
      else b :: insertByStart x t

/-- `sorted(annotations_with_indices, key=lambda item: item[1].get('start_time', 0))`:
a stable ascending sort by start time (Python's `sorted` is stable; any two
stable sorts by the same key agree, so insertion sort is used here). -/
def sortByStart {α : Type} : List (ℕ × Annot α) → List (ℕ × Annot α)
  | [] => []
  | x :: xs => insertByStart x (sortByStart xs)

/-- The per-annotation geometry precomputation loop (`precomputed`). -/
def precompute {α : Type} (fm : Measure α) (audio_duration : ℚ) (rect : LRect)
    (sortedAnns : List (ℕ × Annot α)) : List PreItem :=
  let duration := max audio_duration 1
  sortedAnns.map (fun pr =>
    let single_line_width : ℚ := (fm.advance pr.2.text : ℚ) + 2 * 12
    let bw1 := min (maxBubbleWidth rect) (max 120 single_line_width)
    let bubble_width := min bw1 (availableWidth rect)
    let content_width : ℚ := max 10 (bubble_width - 2 * 12)
    let text_height : ℤ := fm.boundHeight pr.2.text ⌊content_width⌋
    let bubble_height : ℚ := 15 + 20 + 15 + (text_height : ℚ)
    let start_x : ℚ := 30 + (pr.2.start_time / duration) * availableWidth rect
    ⟨pr.1, start_x, start_x + bubble_width, bubble_width, bubble_height⟩)

/-- `can_fit`: the candidate span keeps a 10-pixel buffer to every span
already in the lane. -/
def canFit (item : PreItem) (lane : List (ℚ × ℚ)) : Bool :=
  lane.all (fun se =>
    decide (item.end_x + 10 ≤ se.1) || decide (se.2 + 10 ≤ item.start_x))

/-- First lane (lowest index) the item fits into. -/
def firstFit (item : PreItem) : List (List (ℚ × ℚ)) → Option ℕ
  | [] => none
  | lane :: rest =>
      if canFit item lane then some 0 else (firstFit item rest).map (· + 1)

/-- One iteration of the greedy lane-assignment loop: place the item in the
first fitting lane, or open a new lane; record `(item, zone)`. -/
def placeStep (st : List (List (ℚ × ℚ)) × List (PreItem × ℕ)) (item : PreItem) :
    List (List (ℚ × ℚ)) × List (PreItem × ℕ) :=
  match firstFit item st.1 with
  | some z =>
      (st.1.set z (st.1.getD z [] ++ [(item.start_x, item.end_x)]),
       st.2 ++ [(item, z)])
  | none =>
      (st.1 ++ [[(item.start_x, item.end_x)]], st.2 ++ [(item, st.1.length)])

/-- The whole greedy lane-assignment loop. -/
def placeAll (items : List PreItem) :
    List (List (ℚ × ℚ)) × List (PreItem × ℕ) :=
  items.foldl placeStep ([], [])

/-- `max(xs, default=90)`. -/
def listMaxD (d : ℚ) : List ℚ → ℚ
  | [] => d
  | h :: t => t.foldl max h

/-- `lane_max_heights`: per lane, the maximum bubble height (default 90). -/
def laneMaxHeights (pairs : List (PreItem × ℕ)) (count : ℕ) : List ℚ :=
  (List.range count).map (fun z =>
    listMaxD 90 (((pairs.filter (fun pz => pz.2 = z)).map (fun pz => pz.1.height))))

/-- `lane_y_offsets`: accumulate `scaled_height + zone_spacing` (12) downward. -/
def laneOffsets (y0 : ℚ) : List ℚ → List ℚ
  | [] => []
  | h :: t => y0 :: laneOffsets (y0 + h + 12) t

/-- The sorted annotation list of one invocation. -/
def sortedOf {α : Type} (inp : PackInput α) : List (ℕ × Annot α) :=
  sortByStart inp.anns

/-- The `precomputed` list of one invocation. -/
def itemsOf {α : Type} (inp : PackInput α) : List PreItem :=
  precompute inp.fm inp.audio_duration inp.rect (sortedOf inp)

/-- The final `lanes` list of one invocation. -/
def lanesOf {α : Type} (inp : PackInput α) : List (List (ℚ × ℚ)) :=
  (placeAll (itemsOf inp)).1

/-- The `(item, zone)` pairs of one invocation, in `precomputed` order. -/
def pairsOf {α : Type} (inp : PackInput α) : List (PreItem × ℕ) :=
  (placeAll (itemsOf inp)).2

/-- `len(lanes)`. -/
def laneCount {α : Type} (inp : PackInput α) : ℕ :=
  (lanesOf inp).length

/-- `lane_max_heights` of one invocation. -/
def maxHeightsOf {α : Type} (inp : PackInput α) : List ℚ :=
  laneMaxHeights (pairsOf inp) (laneCount inp)

/-- `available_height = max(0, rect.height() - track_margin_top - bottom_padding)`
with `track_margin_top = 60`, `bottom_padding = 20`. -/
def availableHeight (rect : LRect) : ℚ :=
  max 0 ((rect.height : ℚ) - 60 - 20)

/-- `natural_total = sum(lane_max_heights) + zone_spacing * max(0, len - 1)`
with `zone_spacing = 12`. -/
def naturalTotal {α : Type} (inp : PackInput α) : ℚ :=
  (maxHeightsOf inp).sum + 12 * ((laneCount inp - 1 : ℕ) : ℚ)

/-- `scale = (available_height / natural_total) if natural_total > 0 else 1.0`. -/
def scaleOf {α : Type} (inp : PackInput α) : ℚ :=
  if 0 < naturalTotal inp then availableHeight inp.rect / naturalTotal inp else 1

/-- `lane_scaled_heights`. -/
def scaledHeights {α : Type} (inp : PackInput α) : List ℚ :=
  (maxHeightsOf inp).map (· * scaleOf inp)

/-- `lane_scales[i] = scaled[i] / max[i] if max[i] > 0 else 1.0`. -/
def laneScales {α : Type} (inp : PackInput α) : List ℚ :=
  (List.range (laneCount inp)).map (fun z =>
    if 0 < (maxHeightsOf inp).getD z 0 then
      (scaledHeights inp).getD z 0 / (maxHeightsOf inp).getD z 0
    else 1)

/-- `lane_y_offsets` of one invocation (`y_cursor` starts at
`rect.top() + track_margin_top`). -/
def offsetsOf {α : Type} (inp : PackInput α) : List ℚ :=
  laneOffsets ((inp.rect.top : ℚ) + 60) (scaledHeights inp)

/-- The full `_distribute_annotations_to_zones`: one `ZoneAssignment` per
annotation, in sorted (`precomputed`) order. -/
def distributeModel {α : Type} (inp : PackInput α) : List ZoneAssignment :=
  if inp.anns.isEmpty then []
  else
    (pairsOf inp).map (fun pz =>
      { index := pz.1.index
        zone := pz.2
        x_position := pz.1.start_x
        width := pz.1.width
        y_position := (offsetsOf inp).getD pz.2 0
        height := pz.1.height * (laneScales inp).getD pz.2 1 })

/-! ## Basic facts about the string-search primitives -/

theorem findLt_some_lt {l : List Char} {p : ℕ} (h : findLt l = some p) :
    p < l.length := by
  induction l generalizing p with
  | nil => simp [findLt] at h
  | cons c rest ih =>
    rw [findLt] at h
    by_cases hc : c = '<'
    · simp [hc] at h
      simp only [List.length_cons]
      omega
    · simp [hc] at h
      obtain ⟨q, hq, rfl⟩ := h
      have := ih hq
      simp only [List.length_cons]
      omega

theorem findLt_drop_head {l : List Char} {p : ℕ} (h : findLt l = some p) :
    (l.drop p).head? = some '<' := by
  induction l generalizing p with
  | nil => simp [findLt] at h
  | cons c rest ih =>
    rw [findLt] at h
    by_cases hc : c = '<'
    · simp [hc] at h
      subst h
      simp [hc]
    · simp [hc] at h
      obtain ⟨q, hq, rfl⟩ := h
      simpa using ih hq

theorem findLt_none_not_mem {l : List Char} (h : findLt l = none) : '<' ∉ l := by
  induction l with
  | nil => simp
  | cons c rest ih =>
    rw [findLt] at h
    by_cases hc : c = '<'
    · simp [hc] at h
    · simp [hc] at h
      simp [hc, Ne.symm]
      intro hmem
      exact ih h hmem

theorem findLt_take_not_mem {l : List Char} {p : ℕ} (h : findLt l = some p) :
    '<' ∉ l.take p := by
  induction l generalizing p with
  | nil => simp [findLt] at h
  | cons c rest ih =>
    rw [findLt] at h
    by_cases hc : c = '<'
    · simp [hc] at h
      subst h
      simp
    · simp [hc] at h
      obtain ⟨q, hq, rfl⟩ := h
      simp [hc, Ne.symm]
      exact ih hq

theorem findSub_some_bound {pat l : List Char} {q : ℕ}
    (h : findSub pat l = some q) :
    pat.isPrefixOf (l.drop q) = true ∧ q + pat.length ≤ l.length := by
  induction l generalizing q with
  | nil =>
    rw [findSub] at h
    by_cases hp : pat.isPrefixOf ([] : List Char)
    · simp [hp] at h
      subst h
      simp [hp]
      cases pat with
      | nil => simp
      | cons a t => simp [List.isPrefixOf] at hp
    · simp [hp] at h
  | cons c rest ih =>
    rw [findSub] at h
    by_cases hp : pat.isPrefixOf (c :: rest)
    · simp [hp] at h
      subst h
      refine ⟨by simpa using hp, ?_⟩
      have := List.IsPrefix.length_le ((List.isPrefixOf_iff_prefix).1 hp)
      simpa using this
    · simp [hp] at h
      obtain ⟨q, hq, rfl⟩ := h
      obtain ⟨h1, h2⟩ := ih hq
      refine ⟨by simpa using h1, ?_⟩
      simp
      omega

theorem findSub_some_min {pat l : List Char} {q : ℕ}
    (h : findSub pat l = some q) :
    ∀ i < q, ¬(pat.isPrefixOf (l.drop i) = true) := by
  induction l generalizing q with
  | nil =>
    rw [findSub] at h
    by_cases hp : pat.isPrefixOf ([] : List Char)
    · simp [hp] at h
      intro i hi
      omega
    · simp [hp] at h
  | cons c rest ih =>
    rw [findSub] at h
    by_cases hp : pat.isPrefixOf (c :: rest)
    · simp [hp] at h
      intro i hi
      omega
    · simp [hp] at h
      obtain ⟨q, hq, rfl⟩ := h
      intro i hi
      cases i with
      | zero => simpa using hp
      | succ j =>
        have := ih hq j (by omega)
        simpa using this

theorem findSub_none {pat l : List Char} (h : findSub pat l = none) :
    ∀ i, ¬(pat.isPrefixOf (l.drop i) = true) := by
  induction l with
  | nil =>
    rw [findSub] at h
    by_cases hp : pat.isPrefixOf ([] : List Char)
    · simp [hp] at h
    · intro i
      simpa using hp
  | cons c rest ih =>
    rw [findSub] at h
    by_cases hp : pat.isPrefixOf (c :: rest)
    · simp [hp] at h
    · simp [hp] at h
      intro i
      cases i with
      | zero => simpa using hp
      | succ j => simpa using ih h j

/-! ## C9: the carry-over buffer invariant -/

/-- The shape invariant of `_ai_stream_buffer` at the end of a call. -/
def BufferInv (st : SplitState) : Prop :=
  (st.buffer = [] ∨ (st.buffer.head? = some '<' ∧ st.buffer.length < 7)) ∧
    (st.inside = true → st.buffer = [])

theorem splitGo_buffer_inv :
    ∀ (fuel : ℕ) (st : SplitState) (out : SplitOut),
      st.buffer.length < fuel → BufferInv (splitGo fuel st out).1 := by
  intro fuel
  induction fuel with
  | zero => intro st out h; exact absurd h (Nat.not_lt_zero _)
  | succ fuel ih =>
    intro st out h
    rw [splitGo]
    split
    · -- INSIDE_THINKING
      split
      · -- closing tag found: re-enter the loop
        next q hq =>
        apply ih
        have hb := (findSub_some_bound hq).2
        have h8 : thinkClose.length = 8 := by decide
        rw [h8] at hb
        simp only [List.length_drop]
        omega
      · -- no closing tag: flush thinking, clear buffer
        exact ⟨Or.inl rfl, fun _ => rfl⟩
    · -- SCANNING
      next hin =>
      split
      · -- no '<' in buffer
        split
        · next hb => exact ⟨Or.inl hb, fun _ => hb⟩
        · exact ⟨Or.inl rfl, fun _ => rfl⟩
      · -- '<' at position p
        next p hp =>
        have hplt := findLt_some_lt hp
        split
        · -- complete think tag: re-enter the loop
          next htag =>
          apply ih
          simp only [List.length_drop]
          have h7 : 7 ≤ (st.buffer.drop p).length := by
            simp only [Bool.and_eq_true, decide_eq_true_eq] at htag
            exact htag.1
          simp only [List.length_drop] at h7
          omega
        · split
          · -- fewer than 7 characters after '<': keep the tail
            next hlt =>
            exact ⟨Or.inr ⟨findLt_drop_head hp, hlt⟩,
              fun hc => absurd hc (by simp)⟩
          · -- not a think tag: consume '<' and re-enter the loop
            next hge =>
            apply ih
            simp only [List.length_drop]
            omega

/-- C9: after every call to the splitter's chunk-processing function
(`append_ai_stream_content` / `process_ai_chunk_study_mode`) returns, the
carry-over buffer `_ai_stream_buffer` is either empty or a string that
begins with `'<'` and is shorter than 7 characters; and whenever
`_inside_think_tags` holds at the end of a call, the carry-over buffer is
empty. -/
theorem carryover_buffer_invariant (st : SplitState) (out : SplitOut)
    (c : List Char) :
    ((processChunk st out c).1.buffer = [] ∨
      ((processChunk st out c).1.buffer.head? = some '<' ∧
        (processChunk st out c).1.buffer.length < 7)) ∧
    ((processChunk st out c).1.inside = true →
      (processChunk st out c).1.buffer = []) := by
  apply splitGo_buffer_inv
  simp

/-- Witness for C9 at an input that ends a call inside the thinking block:
the theorem's inner implication is discharged concretely. -/
theorem carryover_buffer_invariant_witness :
    (processChunk initState initOut "<think>x".data).1.buffer = [] :=
  (carryover_buffer_invariant initState initOut "<think>x".data).2 (by decide)

/-! ## Bookkeeping lemmas for emissions and flushes -/

theorem concatAll_nil : concatAll [] = [] := rfl

theorem concatAll_cons (c : List Char) (l : List (List Char)) :
    concatAll (c :: l) = c ++ concatAll l := rfl

theorem concatAll_append (a b : List (List Char)) :
    concatAll (a ++ b) = concatAll a ++ concatAll b := by
  induction a with
  | nil => simp [concatAll]
  | cons c rest ih =>
    simp only [List.cons_append, concatAll_cons, ih, List.append_assoc]

/-- The contents of an optional emission. -/
def optEmit : Option (List Char) → List Char
  | some t => t
  | none => []

theorem applyFlush_think (out : SplitOut) (e : Option (List Char)) :
    (applyFlush out e).think = out.think := by
  cases e <;> rfl

theorem applyFlush_ans (out : SplitOut) (e : Option (List Char)) :
    concatAll (applyFlush out e).ans = concatAll out.ans ++ optEmit e := by
  cases e with
  | none => simp [applyFlush, optEmit]
  | some t =>
    have h : (applyFlush out (some t)).ans = out.ans ++ [t] := rfl
    rw [h, concatAll_append, optEmit]
    simp [concatAll]

/-- `_flush_main_content_buffer` never loses characters: the emission
followed by the retained buffer is the original buffer. -/
theorem flushMain_split (force : Bool) (main : List Char) :
    optEmit (flushMain force main).2 ++ (flushMain force main).1 = main := by
  rw [flushMain]
  by_cases hm : main = []
  · simp [hm, optEmit]
  · rw [if_neg hm]
    cases force with
    | true => simp [optEmit]
    | false =>
      simp only [Bool.false_eq_true, if_false]
      cases hb : lastBoundary main with
      | some b =>
        simp only []
        by_cases hc : main.take b = []
        · simp [hc, optEmit]
          calc main.drop b = main.take b ++ main.drop b := by rw [hc]; rfl
            _ = main := List.take_append_drop b main
        · simp [hc, optEmit]
      | none =>
        by_cases hlen : 100 < main.length
        · simp [hlen, optEmit]
        · simp [hlen, optEmit]

theorem flushEnd_think (st : SplitState) (out : SplitOut) :
    (flushEnd st out).think = out.think := by
  rw [flushEnd]
  by_cases hm : st.main = []
  · simp [hm]
  · rw [if_neg hm]
    exact applyFlush_think _ _

theorem flushEnd_ans (st : SplitState) (out : SplitOut) :
    concatAll (flushEnd st out).ans = concatAll out.ans ++ optEmit (flushMain true st.main).2 := by
  rw [flushEnd]
  by_cases hm : st.main = []
  · simp [hm, flushMain, optEmit]
  · rw [if_neg hm]
    exact applyFlush_ans _ _

theorem flushMain_force_emit (main : List Char) :
    optEmit (flushMain true main).2 = main := by
  rw [flushMain]
  by_cases hm : main = []
  · simp [hm, optEmit]
  · rw [if_neg hm]
    simp [optEmit]

theorem findLt_eq_none {l : List Char} (h : '<' ∉ l) : findLt l = none := by
  induction l with
  | nil => rfl
  | cons c rest ih =>
    rw [findLt]
    simp only [List.mem_cons] at h
    push_neg at h
    rw [if_neg (fun hc => h.1 hc.symm), ih h.2]
    rfl

theorem mem_concatAll {a : Char} {c : List Char} {l : List (List Char)}
    (hc : c ∈ l) (ha : a ∈ c) : a ∈ concatAll l := by
  induction l with
  | nil => cases hc
  | cons d rest ih =>
    rw [concatAll_cons]
    rcases List.mem_cons.1 hc with h | h
    · subst h
      exact List.mem_append_left _ ha
    · exact List.mem_append_right _ (ih h)

/-! ## C7: tag-free passthrough -/

/-- One chunk with no `'<'` processed from a clean scanning state: the
buffer stays empty, no thinking is emitted, and the answer emissions plus
the retained main buffer extend by exactly the chunk. -/
theorem processChunk_no_lt (st : SplitState) (out : SplitOut) (c : List Char)
    (hc : '<' ∉ c) (hb : st.buffer = []) (hin : st.inside = false) :
    (processChunk st out c).1.buffer = [] ∧
    (processChunk st out c).1.inside = false ∧
    (processChunk st out c).2.think = out.think ∧
    concatAll (processChunk st out c).2.ans ++ (processChunk st out c).1.main =
      concatAll out.ans ++ st.main ++ c := by
  rw [processChunk, hb]
  simp only [List.nil_append, List.length_nil, Nat.zero_add]
  rw [splitGo]
  simp only [hin, Bool.false_eq_true, if_false, findLt_eq_none hc]
  by_cases hce : c = []
  · subst hce
    rw [if_pos rfl]
    exact ⟨rfl, rfl, rfl, by simp⟩
  · rw [if_neg hce]
    refine ⟨rfl, rfl, applyFlush_think _ _, ?_⟩
    rw [applyFlush_ans, List.append_assoc]
    rw [flushMain_split]
    simp [List.append_assoc]

/-- Folding chunks with no `'<'` from a clean scanning state. -/
theorem processChunks_no_lt :
    ∀ (chunks : List (List Char)) (st : SplitState) (out : SplitOut),
      (∀ c ∈ chunks, '<' ∉ c) → st.buffer = [] → st.inside = false →
      (chunks.foldl (fun p c => processChunk p.1 p.2 c) (st, out)).1.buffer = [] ∧
      (chunks.foldl (fun p c => processChunk p.1 p.2 c) (st, out)).1.inside = false ∧
      (chunks.foldl (fun p c => processChunk p.1 p.2 c) (st, out)).2.think = out.think ∧
      concatAll (chunks.foldl (fun p c => processChunk p.1 p.2 c) (st, out)).2.ans ++
          (chunks.foldl (fun p c => processChunk p.1 p.2 c) (st, out)).1.main =
        concatAll out.ans ++ st.main ++ concatAll chunks := by
  intro chunks
  induction chunks with
  | nil => intro st out _ hb hin; exact ⟨hb, hin, rfl, by simp [concatAll]⟩
  | cons c rest ih =>
    intro st out hmem hb hin
    obtain ⟨h1, h2, h3, h4⟩ :=
      processChunk_no_lt st out c (hmem c (List.mem_cons_self c rest)) hb hin
    simp only [List.foldl_cons]
    obtain ⟨g1, g2, g3, g4⟩ :=
      ih (processChunk st out c).1 (processChunk st out c).2
        (fun d hd => hmem d (List.mem_cons_of_mem c hd)) h1 h2
    simp only [Prod.mk.eta] at g1 g2 g3 g4
    refine ⟨g1, g2, g3.trans h3, ?_⟩
    rw [g4, h4, concatAll_cons]
    simp [List.append_assoc]

/-- C7 (amended): for every sequence of chunks whose concatenation contains
no `'<'` character at all, the concatenation of all answer-sink emissions,
including the end-of-stream flush, equals the concatenated input — no
character is duplicated or dropped — and nothing is emitted to the thinking
sink.  (As stated over all inputs without a `<think>` tag the claim is
false: see the counterexample, where a trailing partial tag candidate is
discarded by the flush.) -/
theorem tag_free_passthrough (chunks : List (List Char))
    (h : '<' ∉ concatAll chunks) :
    concatAll (runSplitter chunks).ans = concatAll chunks ∧
    (runSplitter chunks).think = [] := by
  have hmem : ∀ c ∈ chunks, '<' ∉ c := fun c hc ha => h (mem_concatAll hc ha)
  obtain ⟨h1, h2, h3, h4⟩ :=
    processChunks_no_lt chunks initState initOut hmem rfl rfl
  rw [runSplitter]
  constructor
  · rw [flushEnd_ans, flushMain_force_emit]
    unfold processChunks
    rw [h4]
    simp [initState, initOut, concatAll]
  · rw [flushEnd_think]
    unfold processChunks
    rw [h3]
    rfl

/-- Witness for C7 (amended) at a concrete chunk sequence. -/
theorem tag_free_passthrough_witness :
    '<' ∉ concatAll ["hello ".data, "world. more".data] ∧
    concatAll (runSplitter ["hello ".data, "world. more".data]).ans =
      concatAll ["hello ".data, "world. more".data] ∧
    (runSplitter ["hello ".data, "world. more".data]).think = [] :=
  ⟨by decide, tag_free_passthrough ["hello ".data, "world. more".data] (by decide)⟩

/-- C7 (counterexample to the claim as stated): the single chunk `"<"`
contains no `<think>` tag, yet nothing is ever emitted to the answer sink —
the pending tag candidate held in the carry-over buffer is discarded by
`clear_ai_stream_buffer`, so the `'<'` character is dropped. -/
theorem tag_free_passthrough_counterexample :
    findSub thinkOpen "<".data = none ∧
    concatAll (runSplitter ["<".data]).ans ≠ "<".data := by decide

/-! ## C3: what the emissions can and cannot contain -/

theorem not_infix_take_of_findSub_some {pat l : List Char} {q : ℕ}
    (h : findSub pat l = some q) (hpat : pat ≠ []) :
    ¬ pat <:+: l.take q := by
  rintro ⟨s, t, hst⟩
  have hq := (findSub_some_bound h).2
  have hlen : (l.take q).length = q := by
    rw [List.length_take]
    omega
  have hdrop : (l.take q).drop s.length = pat ++ t := by
    rw [← hst, List.append_assoc, List.drop_left]
  have hpre : pat <+: l.drop s.length := by
    have h1 : pat <+: (l.take q).drop s.length := ⟨t, hdrop.symm ▸ rfl⟩
    rw [List.drop_take] at h1
    exact h1.trans (List.take_prefix _ _)
  have hslt : s.length < q := by
    have : (l.take q).length = s.length + (pat.length + t.length) := by
      rw [← hst]
      simp [List.length_append]
    have hp1 : 1 ≤ pat.length := List.length_pos.2 hpat
    omega
  exact findSub_some_min h s.length hslt (List.isPrefixOf_iff_prefix.2 hpre)

theorem not_infix_of_findSub_none {pat l : List Char}
    (h : findSub pat l = none) : ¬ pat <:+: l := by
  rintro ⟨s, t, hst⟩
  have hdrop : l.drop s.length = pat ++ t := by
    rw [← hst, List.append_assoc, List.drop_left]
  exact findSub_none h s.length
    (List.isPrefixOf_iff_prefix.2 ⟨t, hdrop.symm ▸ rfl⟩)

/-- Every emission on the thinking sink so far avoids the closing literal. -/
def ThinkNoClose (out : SplitOut) : Prop :=
  ∀ e ∈ out.think, ¬ thinkClose <:+: e

theorem beforeFlush_think (m b : List Char) (out : SplitOut) :
    (beforeFlush m b out).2.think = out.think := by
  rw [beforeFlush]
  by_cases h : hasNonWS b
  · rw [if_pos h]
    exact applyFlush_think _ _
  · rw [if_neg h]

theorem splitGo_think_no_close :
    ∀ (fuel : ℕ) (st : SplitState) (out : SplitOut),
      ThinkNoClose out → ThinkNoClose (splitGo fuel st out).2 := by
  intro fuel
  induction fuel with
  | zero => intro st out h; exact h
  | succ fuel ih =>
    intro st out h
    rw [splitGo]
    split
    · -- INSIDE_THINKING
      split
      · -- closing found at q: a (possibly) emitted prefix `take q`
        next q hq =>
        apply ih
        by_cases hw : hasNonWS (st.buffer.take q)
        · rw [if_pos hw]
          intro e he
          rcases List.mem_append.1 he with h1 | h1
          · exact h e h1
          · rw [List.mem_singleton] at h1
            subst h1
            exact not_infix_take_of_findSub_some hq (by decide)
        · rw [if_neg hw]
          exact h
      · -- no closing tag: the whole buffer (free of the literal) may be emitted
        next hq =>
        by_cases hw : hasNonWS st.buffer
        · rw [if_pos hw]
          intro e he
          rcases List.mem_append.1 he with h1 | h1
          · exact h e h1
          · rw [List.mem_singleton] at h1
            subst h1
            exact not_infix_of_findSub_none hq
        · rw [if_neg hw]
          exact h
    · -- SCANNING: nothing is emitted to the thinking sink
      split
      · split
        · exact h
        · intro e he
          simp only [applyFlush_think] at he
          exact h e he
      · next p hp =>
        split
        · apply ih
          intro e he
          rw [beforeFlush_think] at he
          exact h e he
        · split
          · intro e he
            rw [beforeFlush_think] at he
            exact h e he
          · apply ih
            intro e he
            rw [beforeFlush_think] at he
            exact h e he

/-- C3 (amended): for every chunk sequence, no emission to the thinking sink
ever contains the literal `</think>` as a substring.  The remaining clauses
of the claim are false on the code: a thinking emission can contain the full
literal `<think>` (a nested opening tag is treated as literal text) and can
end in a partial `</think>` fragment (no hold-back is performed when a chunk
boundary cuts the closing tag), and an answer emission can contain both full
literals (reassembled after a blank run before a `'<'` is dropped and a
thinking block is consumed); see the counterexample. -/
theorem think_emission_no_close_literal (chunks : List (List Char)) :
    ∀ e ∈ (runSplitter chunks).think, ¬ thinkClose <:+: e := by
  have hfold :
      ∀ (cs : List (List Char)) (p : SplitState × SplitOut),
        ThinkNoClose p.2 →
        ThinkNoClose (cs.foldl (fun p c => processChunk p.1 p.2 c) p).2 := by
    intro cs
    induction cs with
    | nil => intro p h; exact h
    | cons c rest ih =>
      intro p h
      simp only [List.foldl_cons]
      apply ih
      exact splitGo_think_no_close _ _ _ h
  have h : ThinkNoClose (processChunks chunks).2 := by
    rw [processChunks]
    exact hfold chunks (initState, initOut) (fun e he => by cases he)
  intro e he
  rw [runSplitter, flushEnd_think] at he
  exact h e he

/-- Witness for C3 (amended) at a concrete run with a non-empty thinking
emission list. -/
theorem think_emission_no_close_literal_witness :
    "ABC".data ∈ (runSplitter ["<think>ABC</think>DEF".data]).think ∧
    ¬ thinkClose <:+: "ABC".data :=
  ⟨by decide,
    think_emission_no_close_literal ["<think>ABC</think>DEF".data] "ABC".data
      (by decide)⟩

/-- C3 (counterexample to the claim as stated): on a single concrete chunk
the splitter emits the full `<think>` literal to both sinks — the nested
opening tag inside the thinking block is emitted verbatim to the thinking
sink, and after the blank run before the second `'<'` is dropped, the answer
sink receives the reassembled literal `<think>x`. -/
theorem delimiter_emission_counterexample :
    (runSplitter ["< <think>a<think>b</think>think>x".data]).think =
      ["a<think>b".data] ∧
    (runSplitter ["< <think>a<think>b</think>think>x".data]).ans =
      ["<think>x".data] ∧
    thinkOpen <:+: "a<think>b".data ∧ thinkOpen <:+: "<think>x".data := by
  decide

/-! ## Output accumulation: a call appends its fresh emissions -/

/-- Append the emissions of `d` after those of `o`. -/
def appendOut (o d : SplitOut) : SplitOut :=
  ⟨o.think ++ d.think, o.ans ++ d.ans⟩

theorem appendOut_init (o : SplitOut) : appendOut o initOut = o := by
  cases o
  simp [appendOut, initOut]

theorem appendOut_assoc (o a b : SplitOut) :
    appendOut (appendOut o a) b = appendOut o (appendOut a b) := by
  cases o; cases a; cases b
  simp [appendOut]

theorem emitThink_shift (out : SplitOut) (t : List Char) :
    emitThink out t = appendOut out (emitThink initOut t) := by
  cases out
  simp [emitThink, appendOut, initOut]

theorem emitAns_shift (out : SplitOut) (t : List Char) :
    emitAns out t = appendOut out (emitAns initOut t) := by
  cases out
  simp [emitAns, appendOut, initOut]

theorem applyFlush_shift (out : SplitOut) (e : Option (List Char)) :
    applyFlush out e = appendOut out (applyFlush initOut e) := by
  cases e with
  | none => exact (appendOut_init out).symm
  | some t => exact emitAns_shift out t

theorem beforeFlush_shift (m b : List Char) (out : SplitOut) :
    beforeFlush m b out =
      ((beforeFlush m b initOut).1, appendOut out (beforeFlush m b initOut).2) := by
  rw [beforeFlush, beforeFlush]
  by_cases h : hasNonWS b
  · rw [if_pos h, if_pos h]
    exact congrArg _ (applyFlush_shift _ _)
  · rw [if_neg h, if_neg h]
    exact congrArg _ (appendOut_init out).symm

/-- A `splitGo` call from accumulated output `out` yields the same state as
from empty output, with the fresh emissions appended after `out`. -/
theorem splitGo_out :
    ∀ (fuel : ℕ) (st : SplitState) (out : SplitOut),
      splitGo fuel st out =
        ((splitGo fuel st initOut).1,
          appendOut out (splitGo fuel st initOut).2) := by
  intro fuel
  induction fuel with
  | zero =>
    intro st out
    rw [splitGo, splitGo]
    exact congrArg _ (appendOut_init out).symm
  | succ fuel ih =>
    intro st out
    by_cases hin : st.inside
    · cases hq : findSub thinkClose st.buffer with
      | some q =>
        rw [splitGo]
        conv_rhs => rw [splitGo]
        simp only [hin, if_true, hq]
        by_cases hw : hasNonWS (st.buffer.take q)
        · rw [if_pos hw, if_pos hw, ih _ (emitThink out _),
            ih _ (emitThink initOut _)]
          refine congrArg _ ?_
          rw [← appendOut_assoc, ← emitThink_shift]
        · rw [if_neg hw, if_neg hw]
          exact ih _ out
      | none =>
        rw [splitGo]
        conv_rhs => rw [splitGo]
        simp only [hin, if_true, hq]
        by_cases hw : hasNonWS st.buffer
        · rw [if_pos hw, if_pos hw]
          exact congrArg _ (emitThink_shift out _)
        · rw [if_neg hw, if_neg hw]
          exact congrArg _ (appendOut_init out).symm
    · have hin2 : st.inside = false := by
        cases h : st.inside
        · rfl
        · exact absurd h hin
      cases hq : findLt st.buffer with
      | none =>
        rw [splitGo]
        conv_rhs => rw [splitGo]
        simp only [hin2, Bool.false_eq_true, if_false, hq]
        by_cases hb : st.buffer = []
        · rw [if_pos hb, if_pos hb]
          exact congrArg _ (appendOut_init out).symm
        · rw [if_neg hb, if_neg hb]
          exact congrArg _ (applyFlush_shift out _)
      | some p =>
        rw [splitGo]
        conv_rhs => rw [splitGo]
        simp only [hin2, Bool.false_eq_true, if_false, hq]
        by_cases h7 : (7 ≤ (st.buffer.drop p).length &&
            thinkOpen.isPrefixOf (st.buffer.drop p)) = true
        · rw [if_pos h7, if_pos h7]
          rw [beforeFlush_shift st.main (st.buffer.take p) out]
          rw [ih _ (beforeFlush st.main (st.buffer.take p) initOut).2]
          rw [ih ⟨(st.buffer.drop p).drop 7, true,
                (beforeFlush st.main (st.buffer.take p) initOut).1⟩
              (appendOut out (beforeFlush st.main (st.buffer.take p) initOut).2)]
          refine congrArg _ ?_
          rw [appendOut_assoc]
        · rw [if_neg h7, if_neg h7]
          by_cases hlt : (st.buffer.drop p).length < 7
          · rw [if_pos hlt, if_pos hlt]
            rw [beforeFlush_shift st.main (st.buffer.take p) out]
          · rw [if_neg hlt, if_neg hlt]
            rw [beforeFlush_shift st.main (st.buffer.take p) out]
            rw [ih _ (beforeFlush st.main (st.buffer.take p) initOut).2]
            rw [ih ⟨(st.buffer.drop p).drop 1, false,
                  (beforeFlush st.main (st.buffer.take p) initOut).1 ++ ['<']⟩
                (appendOut out (beforeFlush st.main (st.buffer.take p) initOut).2)]
            refine congrArg _ ?_
            rw [appendOut_assoc]

/-- `processChunk` version of `splitGo_out`. -/
theorem processChunk_out (st : SplitState) (out : SplitOut) (c : List Char) :
    processChunk st out c =
      ((processChunk st initOut c).1,
        appendOut out (processChunk st initOut c).2) := by
  rw [processChunk, processChunk]
  exact splitGo_out _ _ out

/-! ## C1: chunk-boundary invariance on `"<think>ABC</think>DEF"`

The target stream has the closing delimiter `</think>` at positions 10–17.
Because the splitter emits its whole buffer to the thinking sink whenever the
buffer holds no complete `</think>` (no hold-back of a partial closing tag),
a chunk boundary strictly inside the closing delimiter breaks the claim; all
other boundaries preserve it.  The proof tabulates the reachable
configuration after each allowed prefix length and checks every allowed
single-chunk transition by evaluation. -/

def c1Target : List Char := "<think>ABC</think>DEF".data

/-- A cut position that does not fall strictly inside the closing delimiter
(`</think>` occupies positions 10–17 of the target, so the forbidden cuts
are 11–17). -/
def allowedCut (n : ℕ) : Prop := n ≤ 10 ∨ 18 ≤ n

instance (n : ℕ) : Decidable (allowedCut n) := by
  unfold allowedCut
  infer_instance

/-- The splitter state after feeding the first `n` characters of the target
through chunks cutting only at allowed positions. -/
def c1State (n : ℕ) : SplitState :=
  if n ≤ 6 then ⟨c1Target.take n, false, []⟩
  else if n ≤ 10 then ⟨[], true, []⟩
  else ⟨[], false, ("DEF".data).take (n - 18)⟩

/-- The concatenated thinking emissions after the first `n` characters. -/
def c1Think (n : ℕ) : List Char := ("ABC".data).take (n - 7)

/-- Every allowed single-chunk transition of the target stream, checked by
evaluation: the state moves along the table and the thinking concatenation
extends as predicted, with nothing emitted to the answer sink. -/
theorem c1_step_all : ∀ n : ℕ, n < 22 → ∀ n2 : ℕ, n2 < 22 →
    ¬(allowedCut n ∧ allowedCut n2 ∧ n < n2) ∨
    ((processChunk (c1State n) initOut ((c1Target.drop n).take (n2 - n))).1 =
        c1State n2 ∧
      c1Think n ++
          concatAll
            (processChunk (c1State n) initOut
              ((c1Target.drop n).take (n2 - n))).2.think = c1Think n2 ∧
      (processChunk (c1State n) initOut
        ((c1Target.drop n).take (n2 - n))).2.ans = []) := by
  decide

/-- All chunks are non-empty and every chunk boundary (cumulative length
from position `n`) is an allowed cut. -/
def c1OkB (n : ℕ) : List (List Char) → Bool
  | [] => true
  | c :: rest =>
      (!c.isEmpty) && decide (allowedCut (n + c.length)) &&
        c1OkB (n + c.length) rest

theorem c1_aux :
    ∀ (chunks : List (List Char)) (n : ℕ) (st : SplitState) (out : SplitOut),
      n < 22 → allowedCut n → c1OkB n chunks = true →
      concatAll chunks = c1Target.drop n →
      st = c1State n → concatAll out.think = c1Think n → out.ans = [] →
      (chunks.foldl (fun p c => processChunk p.1 p.2 c) (st, out)).1 =
          c1State 21 ∧
      concatAll
          (chunks.foldl (fun p c => processChunk p.1 p.2 c) (st, out)).2.think =
        c1Think 21 ∧
      (chunks.foldl (fun p c => processChunk p.1 p.2 c) (st, out)).2.ans = [] := by
  intro chunks
  induction chunks with
  | nil =>
    intro n st out hn hcut hok hjoin hst hthink hans
    have hlen21 : c1Target.length = 21 := by decide
    rw [concatAll_nil] at hjoin
    have h21 : n = 21 := by
      have hl := congrArg List.length hjoin
      rw [List.length_drop, hlen21] at hl
      simp at hl
      omega
    subst h21
    simp only [List.foldl_nil]
    exact ⟨hst, by rw [hthink], hans⟩
  | cons c rest ih =>
    intro n st out hn hcut hok hjoin hst hthink hans
    rw [c1OkB] at hok
    simp only [Bool.and_eq_true, Bool.not_eq_eq_eq_not, Bool.not_true,
      decide_eq_true_eq] at hok
    obtain ⟨⟨hne, hcut2⟩, hok2⟩ := hok
    have hcne : c ≠ [] := by
      intro hceq
      rw [hceq] at hne
      simp at hne
    rw [concatAll_cons] at hjoin
    have hlen21 : c1Target.length = 21 := by decide
    have hlen2 : c.length + (concatAll rest).length = 21 - n := by
      have hl := congrArg List.length hjoin
      rw [List.length_drop, hlen21] at hl
      simp only [List.length_append] at hl
      omega
    have hn2lt : n + c.length < 22 := by omega
    have hclt : 0 < c.length := List.length_pos.2 hcne
    have hcseg : (c1Target.drop n).take (n + c.length - n) = c := by
      have he : n + c.length - n = c.length := by omega
      rw [he, ← hjoin, List.take_left]
    have hrest : concatAll rest = c1Target.drop (n + c.length) := by
      have h1 : (c1Target.drop n).drop c.length = concatAll rest := by
        rw [← hjoin, List.drop_left]
      rw [← h1, List.drop_drop]
    have hstep := c1_step_all n hn (n + c.length) hn2lt
    rcases hstep with hbad | ⟨hs1, hs2, hs3⟩
    · exact absurd ⟨hcut, hcut2, by omega⟩ hbad
    · rw [hcseg] at hs1 hs2 hs3
      have hpair :
          processChunk st out c =
            (c1State (n + c.length),
              appendOut out (processChunk (c1State n) initOut c).2) := by
        rw [hst, processChunk_out, hs1]
      simp only [List.foldl_cons]
      rw [hpair]
      apply ih (n + c.length) _ _ hn2lt hcut2 hok2 hrest rfl
      · show concatAll
            (out.think ++ (processChunk (c1State n) initOut c).2.think) = _
        rw [concatAll_append, hthink]
        exact hs2
      · show out.ans ++ (processChunk (c1State n) initOut c).2.ans = []
        rw [hans, hs3]
        rfl

/-- C1 (amended): for every way of splitting `"<think>ABC</think>DEF"` into
non-empty chunks **none of whose boundaries falls strictly inside the
closing `</think>` delimiter**, the concatenation of all thinking-sink
emissions is `"ABC"` and the concatenation of all answer-sink emissions
(after the end-of-stream flush) is `"DEF"`.  As stated — over *all*
non-empty chunkings — the claim is false: a boundary inside `</think>`
makes the splitter emit the partial tag to the thinking sink and never
leave thinking mode (see the counterexample). -/
theorem stream_boundary_invariance (chunks : List (List Char))
    (hok : c1OkB 0 chunks = true)
    (hjoin : concatAll chunks = c1Target) :
    concatAll (runSplitter chunks).think = "ABC".data ∧
    concatAll (runSplitter chunks).ans = "DEF".data := by
  obtain ⟨h1, h2, h3⟩ :=
    c1_aux chunks 0 initState initOut (by omega) (Or.inl (by omega)) hok
      (by simpa using hjoin) (by decide) (by decide) rfl
  rw [runSplitter]
  refine ⟨?_, ?_⟩
  · rw [flushEnd_think]
    rw [processChunks]
    rw [h2]
    decide
  · rw [flushEnd_ans, flushMain_force_emit]
    rw [processChunks]
    rw [h3, h1]
    decide

/-- Witness for C1 (amended) at the single-chunk splitting. -/
theorem stream_boundary_invariance_witness :
    c1OkB 0 ["<think>ABC</think>DEF".data] = true ∧
    concatAll ["<think>ABC</think>DEF".data] = c1Target ∧
    concatAll (runSplitter ["<think>ABC</think>DEF".data]).think = "ABC".data ∧
    concatAll (runSplitter ["<think>ABC</think>DEF".data]).ans = "DEF".data :=
  ⟨by decide, by decide,
    stream_boundary_invariance ["<think>ABC</think>DEF".data]
      (by decide) (by decide)⟩

/-- C1 (counterexample to the claim as stated): the splitting
`["<think>ABC</thi", "nk>DEF"]` into non-empty chunks (boundary at
position 15, inside `</think>`) emits `"ABC</thi"` and `"nk>DEF"` to the
thinking sink and nothing to the answer sink. -/
theorem stream_boundary_invariance_counterexample :
    "<think>ABC</thi".data ≠ [] ∧ "nk>DEF".data ≠ [] ∧
    concatAll ["<think>ABC</thi".data, "nk>DEF".data] = c1Target ∧
    concatAll (runSplitter ["<think>ABC</thi".data, "nk>DEF".data]).think ≠
      "ABC".data ∧
    concatAll (runSplitter ["<think>ABC</thi".data, "nk>DEF".data]).ans ≠
      "DEF".data := by
  decide

/-! ## Lane packer: the greedy-placement invariant -/

theorem getD_append_left {β : Type} (l m : List β) (i : ℕ) (d : β)
    (h : i < l.length) : (l ++ m).getD i d = l.getD i d := by
  induction l generalizing i with
  | nil => simp at h
  | cons x xs ih =>
    cases i with
    | zero => rfl
    | succ j =>
      simp only [List.cons_append, List.getD_cons_succ]
      exact ih j (by simpa using h)

theorem getD_append_len {β : Type} (l : List β) (x d : β) :
    (l ++ [x]).getD l.length d = x := by
  induction l with
  | nil => rfl
  | cons y ys ih =>
    simp only [List.cons_append, List.length_cons]
    exact ih

theorem getD_set_self {β : Type} (l : List β) (i : ℕ) (x d : β)
    (h : i < l.length) : (l.set i x).getD i d = x := by
  induction l generalizing i with
  | nil => simp at h
  | cons y ys ih =>
    cases i with
    | zero => rfl
    | succ j =>
      simp only [List.set_cons_succ, List.getD_cons_succ]
      exact ih j (by simpa using h)

theorem getD_set_ne {β : Type} (l : List β) (i j : ℕ) (x d : β)
    (h : i ≠ j) : (l.set i x).getD j d = l.getD j d := by
  induction l generalizing i j with
  | nil => simp
  | cons y ys ih =>
    cases i with
    | zero =>
      cases j with
      | zero => exact absurd rfl h
      | succ k => rfl
    | succ i2 =>
      cases j with
      | zero => rfl
      | succ k =>
        simp only [List.set_cons_succ, List.getD_cons_succ]
        exact ih i2 k (fun he => h (by rw [he]))

/-- The horizontal span recorded in a lane for one placed item. -/
def span (it : PreItem) : ℚ × ℚ := (it.start_x, it.end_x)

/-- Two placed items sharing a lane keep the 10-pixel buffer between their
spans. -/
def sepA (a b : PreItem × ℕ) : Prop :=
  a.2 = b.2 → (a.1.end_x + 10 ≤ b.1.start_x ∨ b.1.end_x + 10 ≤ a.1.start_x)

/-- The invariant of the greedy lane-assignment fold: each lane records
exactly the spans of the items assigned to it (in placement order), every
recorded zone is a real lane, no lane is empty, and any two same-lane items
are separated. -/
def PlaceInv (st : List (List (ℚ × ℚ)) × List (PreItem × ℕ)) : Prop :=
  (∀ z, z < st.1.length →
      st.1.getD z [] =
        (st.2.filter (fun pz => pz.2 = z)).map (fun pz => span pz.1)) ∧
  (∀ pz ∈ st.2, pz.2 < st.1.length) ∧
  (∀ z, z < st.1.length → st.1.getD z [] ≠ []) ∧
  List.Pairwise sepA st.2

theorem firstFit_spec {item : PreItem} :
    ∀ {lanes : List (List (ℚ × ℚ))} {z : ℕ},
      firstFit item lanes = some z →
      z < lanes.length ∧ canFit item (lanes.getD z []) = true := by
  intro lanes
  induction lanes with
  | nil => intro z h; simp [firstFit] at h
  | cons lane rest ih =>
    intro z h
    rw [firstFit] at h
    by_cases hc : canFit item lane
    · simp [hc] at h
      subst h
      exact ⟨by simp, hc⟩
    · simp [hc] at h
      obtain ⟨w, hw, rfl⟩ := h
      obtain ⟨h1, h2⟩ := ih hw
      exact ⟨by simp; omega, h2⟩

theorem canFit_all {item : PreItem} {lane : List (ℚ × ℚ)}
    (h : canFit item lane = true) :
    ∀ se ∈ lane, item.end_x + 10 ≤ se.1 ∨ se.2 + 10 ≤ item.start_x := by
  intro se hse
  rw [canFit, List.all_eq_true] at h
  have := h se hse
  simpa using this

theorem placeStep_inv {st : List (List (ℚ × ℚ)) × List (PreItem × ℕ)}
    {item : PreItem} (h : PlaceInv st) : PlaceInv (placeStep st item) := by
  obtain ⟨ha, hb, hc, hd⟩ := h
  rw [placeStep]
  cases hf : firstFit item st.1 with
  | some z =>
    obtain ⟨hzlt, hfit⟩ := firstFit_spec hf
    have hsep : ∀ pz ∈ st.2, sepA pz (item, z) := by
      intro pz hpz
      intro heq
      have hmem : span pz.1 ∈ st.1.getD pz.2 [] := by
        rw [ha pz.2 (hb pz hpz)]
        exact List.mem_map_of_mem _ (List.mem_filter.2 ⟨hpz, by simp⟩)
      rw [heq] at hmem
      have := canFit_all hfit (span pz.1) hmem
      rw [span] at this
      tauto
    refine ⟨?_, ?_, ?_, ?_⟩
    · intro z2 hz2
      simp only [List.length_set] at hz2
      by_cases hzz : z2 = z
      · subst hzz
        rw [getD_set_self _ _ _ _ hz2, List.filter_append, List.map_append,
          ← ha z2 hz2]
        congr 1
        simp [span]
      · rw [getD_set_ne _ _ _ _ _ (fun he => hzz he.symm), ha z2 hz2,
          List.filter_append, List.map_append]
        have : List.filter (fun pz => decide (pz.2 = z2)) [(item, z)] = [] := by
          simp [hzz, Ne.symm]
        simp [this]
    · intro pz hpz
      simp only [List.length_set]
      rcases List.mem_append.1 hpz with h2 | h2
      · exact hb pz h2
      · rw [List.mem_singleton] at h2
        subst h2
        exact hzlt
    · intro z2 hz2
      simp only [List.length_set] at hz2
      by_cases hzz : z2 = z
      · subst hzz
        rw [getD_set_self _ _ _ _ hz2]
        simp
      · rw [getD_set_ne _ _ _ _ _ (fun he => hzz he.symm)]
        exact hc z2 hz2
    · rw [List.pairwise_append]
      exact ⟨hd, List.pairwise_singleton _ _, by
        intro a h2 b h3
        rw [List.mem_singleton] at h3
        subst h3
        exact hsep a h2⟩
  | none =>
    refine ⟨?_, ?_, ?_, ?_⟩
    · intro z2 hz2
      simp only [List.length_append, List.length_singleton] at hz2
      by_cases hzz : z2 = st.1.length
      · subst hzz
        rw [getD_append_len, List.filter_append]
        have h0 : List.filter (fun pz => decide (pz.2 = st.1.length)) st.2 = [] := by
          rw [List.filter_eq_nil_iff]
          intro pz hpz
          simp only [decide_eq_true_eq]
          exact Nat.ne_of_lt (hb pz hpz)
        rw [h0]
        simp [span]
      · have hlt : z2 < st.1.length := by omega
        rw [getD_append_left _ _ _ _ hlt, ha z2 hlt, List.filter_append,
          List.map_append]
        have : List.filter (fun pz => decide (pz.2 = z2)) [(item, st.1.length)] = [] := by
          simp
          omega
        simp [this]
    · intro pz hpz
      simp only [List.length_append, List.length_singleton]
      rcases List.mem_append.1 hpz with h2 | h2
      · have := hb pz h2
        omega
      · rw [List.mem_singleton] at h2
        subst h2
        simp
    · intro z2 hz2
      simp only [List.length_append, List.length_singleton] at hz2
      by_cases hzz : z2 = st.1.length
      · subst hzz
        rw [getD_append_len]
        simp
      · have hlt : z2 < st.1.length := by omega
        rw [getD_append_left _ _ _ _ hlt]
        exact hc z2 hlt
    · rw [List.pairwise_append]
      refine ⟨hd, List.pairwise_singleton _ _, ?_⟩
      intro a h2 b h3
      rw [List.mem_singleton] at h3
      subst h3
      intro heq
      exact absurd heq (Nat.ne_of_lt (hb a h2))

theorem placeAll_inv_aux :
    ∀ (items : List PreItem) (st : List (List (ℚ × ℚ)) × List (PreItem × ℕ)),
      PlaceInv st → PlaceInv (items.foldl placeStep st) := by
  intro items
  induction items with
  | nil => intro st h; exact h
  | cons it rest ih =>
    intro st h
    simp only [List.foldl_cons]
    exact ih _ (placeStep_inv h)

theorem placeAll_inv (items : List PreItem) : PlaceInv (placeAll items) := by
  rw [placeAll]
  apply placeAll_inv_aux
  exact ⟨fun z hz => by simp at hz, fun pz hpz => by simp at hpz,
    fun z hz => by simp at hz, List.Pairwise.nil⟩

/-- Properties of the recorded items are inherited from the input items. -/
theorem placeAll_items_prop (P : PreItem → Prop) :
    ∀ (items : List PreItem) (st : List (List (ℚ × ℚ)) × List (PreItem × ℕ)),
      (∀ pz ∈ st.2, P pz.1) → (∀ it ∈ items, P it) →
      ∀ pz ∈ (items.foldl placeStep st).2, P pz.1 := by
  intro items
  induction items with
  | nil => intro st h1 h2; exact h1
  | cons it rest ih =>
    intro st h1 h2
    simp only [List.foldl_cons]
    apply ih
    · intro pz hpz
      rw [placeStep] at hpz
      cases hf : firstFit it st.1 with
      | some z =>
        rw [hf] at hpz
        rcases List.mem_append.1 hpz with h3 | h3
        · exact h1 pz h3
        · rw [List.mem_singleton] at h3
          subst h3
          exact h2 it (List.mem_cons_self _ _)
      | none =>
        rw [hf] at hpz
        rcases List.mem_append.1 hpz with h3 | h3
        · exact h1 pz h3
        · rw [List.mem_singleton] at h3
          subst h3
          exact h2 it (List.mem_cons_self _ _)
    · intro it2 h3
      exact h2 it2 (List.mem_cons_of_mem _ h3)

/-- The placement fold records one pair per item. -/
theorem placeAll_length_aux :
    ∀ (items : List PreItem) (st : List (List (ℚ × ℚ)) × List (PreItem × ℕ)),
      (items.foldl placeStep st).2.length = st.2.length + items.length := by
  intro items
  induction items with
  | nil => intro st; simp
  | cons it rest ih =>
    intro st
    simp only [List.foldl_cons, List.length_cons]
    rw [ih]
    have : (placeStep st it).2.length = st.2.length + 1 := by
      rw [placeStep]
      cases firstFit it st.1 <;> simp
    omega

/-! ## Lane packer: length and field facts -/

theorem insertByStart_length {α : Type} (x : ℕ × Annot α)
    (l : List (ℕ × Annot α)) : (insertByStart x l).length = l.length + 1 := by
  induction l with
  | nil => rfl
  | cons b t ih =>
    rw [insertByStart]
    by_cases h : x.2.start_time ≤ b.2.start_time
    · rw [if_pos h]
      rfl
    · rw [if_neg h]
      simp only [List.length_cons, ih]

theorem sortByStart_length {α : Type} (l : List (ℕ × Annot α)) :
    (sortByStart l).length = l.length := by
  induction l with
  | nil => rfl
  | cons x xs ih =>
    rw [sortByStart, insertByStart_length, ih]
    rfl

theorem itemsOf_length {α : Type} (inp : PackInput α) :
    (itemsOf inp).length = inp.anns.length := by
  rw [itemsOf, precompute]
  simp only [List.length_map]
  rw [sortedOf, sortByStart_length]

theorem pairsOf_length {α : Type} (inp : PackInput α) :
    (pairsOf inp).length = inp.anns.length := by
  rw [pairsOf, placeAll]
  rw [placeAll_length_aux]
  simp [itemsOf_length]

/-- The packer is total: it produces exactly one assignment per annotation,
for every input. -/
theorem distributeModel_length {α : Type} (inp : PackInput α) :
    (distributeModel inp).length = inp.anns.length := by
  rw [distributeModel]
  by_cases he : inp.anns.isEmpty
  · rw [if_pos he, List.isEmpty_iff.1 he]
    rfl
  · rw [if_neg he, List.length_map]
    exact pairsOf_length inp

/-- Every precomputed item satisfies `end_x = start_x + width`
(`end_x = start_x + bubble_width` in the source). -/
theorem itemsOf_end {α : Type} (inp : PackInput α) :
    ∀ it ∈ itemsOf inp, it.end_x = it.start_x + it.width := by
  intro it hit
  rw [itemsOf, precompute] at hit
  simp only [List.mem_map] at hit
  obtain ⟨pr, hpr, heq⟩ := hit
  rw [← heq]

theorem pairsOf_fst_mem {α : Type} (inp : PackInput α) :
    ∀ pz ∈ pairsOf inp, pz.1 ∈ itemsOf inp := by
  intro pz hpz
  exact placeAll_items_prop (fun it => it ∈ itemsOf inp) (itemsOf inp)
    ([], []) (by simp) (fun it h => h) pz hpz

/-! ## C4: same-lane horizontal separation -/

/-- C4: for every input, no two assignments that share a lane have
intersecting horizontal spans `[x, x + width]`, even keeping the fixed
10-pixel buffer gap between them: one of the two spans ends at least 10
pixels before the other starts. -/
theorem lane_no_overlap {α : Type} (inp : PackInput α) :
    List.Pairwise
      (fun a b => a.zone = b.zone →
        a.x_position + a.width + 10 ≤ b.x_position ∨
        b.x_position + b.width + 10 ≤ a.x_position)
      (distributeModel inp) := by
  rw [distributeModel]
  by_cases he : inp.anns.isEmpty
  · rw [if_pos he]
    exact List.Pairwise.nil
  · rw [if_neg he, List.pairwise_map]
    have hinv := placeAll_inv (itemsOf inp)
    have hpw : List.Pairwise sepA (pairsOf inp) := hinv.2.2.2
    have hend : ∀ pz ∈ pairsOf inp, pz.1.end_x = pz.1.start_x + pz.1.width :=
      fun pz hpz => itemsOf_end inp pz.1 (pairsOf_fst_mem inp pz hpz)
    refine List.Pairwise.imp_of_mem ?_ hpw
    intro a b ha hb hsep heq
    have h1 := hend a ha
    have h2 := hend b hb
    have h3 := hsep heq
    rw [h1, h2] at h3
    exact h3

/-! ## C6: same lane, same y — but not same height -/
/-- C6 (amended): any two assignments sharing a lane have the same
`y_position` (both copy the lane's `y` offset).  The height clause of the
claim is false: each assignment's height is its **own** natural bubble
height times the lane scale factor, so same-lane bubbles with different
natural heights keep different heights (see the counterexample). -/
theorem same_lane_same_y {α : Type} (inp : PackInput α) :
    ∀ a ∈ distributeModel inp, ∀ b ∈ distributeModel inp,
      a.zone = b.zone → a.y_position = b.y_position := by
  have hy : ∀ x ∈ distributeModel inp,
      x.y_position = (offsetsOf inp).getD x.zone 0 := by
    intro x hx
    rw [distributeModel] at hx
    by_cases he : inp.anns.isEmpty
    · rw [if_pos he] at hx
      cases hx
    · rw [if_neg he] at hx
      obtain ⟨pz, hpz, heq2⟩ := List.mem_map.1 hx
      rw [← heq2]
  intro a ha b hb heq
  rw [hy a ha, hy b hb, heq]

/-- The measurement used by the concrete lane-packer counterexamples:
constant advance 100, wrapped height 30 for text id 0 and 60 otherwise. -/
def fmDemo : Measure ℕ := ⟨fun _ => 100, fun t _ => if t = 0 then 30 else 60⟩

/-- Two far-apart annotations that share lane 0 but have different natural
bubble heights (80 and 110). -/
def inpTwoHeights : PackInput ℕ :=
  ⟨fmDemo, 100, ⟨800, 600, 0⟩, [(0, ⟨0, 0⟩), (1, ⟨50, 1⟩)]⟩

def zaFirst : ZoneAssignment := ⟨0, 0, 30, 124, 60, 4160 / 11⟩

def zaSecond : ZoneAssignment := ⟨1, 0, 775 / 2, 124, 60, 520⟩

/-- The concrete two-annotation run evaluated in full: the first annotation
(height 80) and the second (height 110) share lane 0, the single lane is
scaled by `520/110 = 52/11`, and each bubble keeps its own scaled height. -/
theorem distribute_inpTwoHeights :
    distributeModel inpTwoHeights = [zaFirst, zaSecond] := by
  have hr1 : List.range 1 = [0] := by decide
  norm_num [distributeModel, pairsOf, lanesOf, itemsOf, sortedOf, sortByStart,
    insertByStart, precompute, maxBubbleWidth, availableWidth, inpTwoHeights,
    fmDemo, placeAll, placeStep, firstFit, canFit, offsetsOf, laneOffsets,
    scaledHeights, laneScales, maxHeightsOf, laneMaxHeights, listMaxD,
    laneCount, naturalTotal, scaleOf, availableHeight, zaFirst, zaSecond,
    hr1, List.filter_cons, List.sum_cons, List.sum_nil]

/-- Witness for C4 at a concrete run: the two lane-0 assignments of
`inpTwoHeights` keep the 10-pixel gap. -/
theorem lane_no_overlap_witness :
    zaFirst.x_position + zaFirst.width + 10 ≤ zaSecond.x_position ∨
    zaSecond.x_position + zaSecond.width + 10 ≤ zaFirst.x_position := by
  have h := lane_no_overlap inpTwoHeights
  rw [distribute_inpTwoHeights] at h
  exact (List.pairwise_cons.1 h).1 zaSecond (List.mem_cons_self _ _) rfl

/-- Witness for C6 (amended) at a concrete input with two same-lane
assignments. -/
theorem same_lane_same_y_witness :
    zaFirst ∈ distributeModel inpTwoHeights ∧
    zaSecond ∈ distributeModel inpTwoHeights ∧
    zaFirst.zone = zaSecond.zone ∧
    zaFirst.y_position = zaSecond.y_position := by
  have h1 : zaFirst ∈ distributeModel inpTwoHeights := by
    rw [distribute_inpTwoHeights]
    exact List.mem_cons_self _ _
  have h2 : zaSecond ∈ distributeModel inpTwoHeights := by
    rw [distribute_inpTwoHeights]
    exact List.mem_cons_of_mem _ (List.mem_cons_self _ _)
  exact ⟨h1, h2, rfl, same_lane_same_y inpTwoHeights zaFirst h1 zaSecond h2 rfl⟩

/-- C6 (counterexample to the claim as stated): two assignments in lane 0
whose heights differ (`80 * 52/11 = 4160/11` vs `110 * 52/11 = 520`):
heights are not shared across a lane. -/
theorem same_lane_height_counterexample :
    distributeModel inpTwoHeights = [zaFirst, zaSecond] ∧
    zaFirst.zone = zaSecond.zone ∧
    zaFirst.height ≠ zaSecond.height := by
  refine ⟨distribute_inpTwoHeights, rfl, ?_⟩
  norm_num [zaFirst, zaSecond]

/-! ## C10: the used lanes are exactly `0 .. L-1` -/

/-- C10: for every non-empty input the lane indices of the output are
exactly `{0, ..., L-1}` for `L = laneCount ≥ 1`, and every one of those
lanes carries at least one assignment. -/
theorem lane_contiguity {α : Type} (inp : PackInput α) (h : inp.anns ≠ []) :
    1 ≤ laneCount inp ∧
    (∀ a ∈ distributeModel inp, a.zone < laneCount inp) ∧
    (∀ z < laneCount inp, ∃ a ∈ distributeModel inp, a.zone = z) := by
  have hinv := placeAll_inv (itemsOf inp)
  have hne : ¬inp.anns.isEmpty = true := fun he => h (List.isEmpty_iff.1 he)
  have hpos : 0 < (pairsOf inp).length := by
    rw [pairsOf_length]
    exact List.length_pos.2 h
  refine ⟨?_, ?_, ?_⟩
  · obtain ⟨pz, hpz⟩ := List.exists_mem_of_length_pos hpos
    have := hinv.2.1 pz hpz
    rw [laneCount, lanesOf]
    omega
  · intro a ha
    rw [distributeModel, if_neg hne] at ha
    obtain ⟨pz, hpz, heq⟩ := List.mem_map.1 ha
    rw [← heq]
    exact hinv.2.1 pz hpz
  · intro z hz
    have hz2 : z < (lanesOf inp).length := hz
    have hlane := hinv.2.2.1 z hz2
    rw [hinv.1 z hz2] at hlane
    have hf : (placeAll (itemsOf inp)).2.filter (fun pz => pz.2 = z) ≠ [] := by
      intro h0
      rw [h0] at hlane
      exact hlane rfl
    obtain ⟨pz, hpz⟩ := List.exists_mem_of_ne_nil _ hf
    have hmem : pz ∈ pairsOf inp := List.mem_of_mem_filter hpz
    have hzeq : pz.2 = z := by
      have := List.of_mem_filter hpz
      simpa using this
    rw [distributeModel, if_neg hne]
    refine ⟨_, List.mem_map_of_mem _ hmem, hzeq⟩

/-- Witness for C10 at a concrete two-lane input. -/
theorem lane_contiguity_witness :
    inpTwoHeights.anns ≠ [] ∧
    (1 ≤ laneCount inpTwoHeights ∧
      (∀ a ∈ distributeModel inpTwoHeights, a.zone < laneCount inpTwoHeights) ∧
      (∀ z < laneCount inpTwoHeights,
        ∃ a ∈ distributeModel inpTwoHeights, a.zone = z)) :=
  ⟨List.cons_ne_nil _ _, lane_contiguity inpTwoHeights (List.cons_ne_nil _ _)⟩

/-! ## C5: degenerate inputs do not fail -/

/-- A degenerate invocation: zero duration, negative viewport. -/
def inpDegenerate : PackInput ℕ :=
  ⟨fmDemo, 0, ⟨-5, -7, 0⟩, [(0, ⟨0, 0⟩)]⟩

/-- C5 (amended): invoked with a non-positive total duration or a
non-positive viewport width/height, the lane packer does **not** fail — no
`InvalidLayoutInput` (or any other) error exists in the code; the function
clamps (`duration = max(audio_duration, 1)`, `available_width = max(1, ·)`,
`available_height = max(0, ·)`) and returns a layout with exactly one
assignment per annotation. -/
theorem degenerate_input_no_failure {α : Type} (inp : PackInput α)
    (h : inp.audio_duration ≤ 0 ∨ inp.rect.width ≤ 0 ∨ inp.rect.height ≤ 0) :
    (distributeModel inp).length = inp.anns.length :=
  distributeModel_length inp

/-- Witness for C5 (amended) at the degenerate input. -/
theorem degenerate_input_no_failure_witness :
    (inpDegenerate.audio_duration ≤ 0 ∨ inpDegenerate.rect.width ≤ 0 ∨
      inpDegenerate.rect.height ≤ 0) ∧
    (distributeModel inpDegenerate).length = inpDegenerate.anns.length :=
  ⟨Or.inl (le_refl 0),
    degenerate_input_no_failure inpDegenerate (Or.inl (le_refl 0))⟩

/-- C5 (counterexample to the claim as stated): at zero duration and a
negative viewport the packer raises nothing — it returns an ordinary
one-assignment layout (the clamps produce available width 1, available
height 0, hence scale 0). -/
theorem degenerate_input_counterexample :
    distributeModel inpDegenerate = [⟨0, 0, 30, -27, 60, 0⟩] := by
  have hr1 : List.range 1 = [0] := by decide
  norm_num [distributeModel, pairsOf, lanesOf, itemsOf, sortedOf, sortByStart,
    insertByStart, precompute, maxBubbleWidth, availableWidth, inpDegenerate,
    fmDemo, placeAll, placeStep, firstFit, canFit, offsetsOf, laneOffsets,
    scaledHeights, laneScales, maxHeightsOf, laneMaxHeights, listMaxD,
    laneCount, naturalTotal, scaleOf, availableHeight,
    hr1, List.filter_cons, List.sum_cons, List.sum_nil]

/-! ## C2: the vertical fill identity -/

theorem sum_map_mul (l : List ℚ) (r : ℚ) :
    (l.map (· * r)).sum = l.sum * r := by
  induction l with
  | nil => simp
  | cons x xs ih =>
    simp only [List.map_cons, List.sum_cons, ih]
    ring

/-- C2 (amended): the code scales only the lane heights, not the inter-lane
spacing, while the scale factor was computed against the spacing-inclusive
natural total.  Hence the stacked extent `Σ scaled_height + spacing·(L−1)`
equals `available_height − (scale − 1)·spacing·(L−1)` — it equals
`available_height` exactly only when `L = 1` or `scale = 1`, not in
general (see the counterexample). -/
theorem lane_fill_identity {α : Type} (inp : PackInput α)
    (h1 : 1 ≤ laneCount inp) (h2 : 0 < naturalTotal inp) :
    (scaledHeights inp).sum + 12 * ((laneCount inp : ℚ) - 1) =
      availableHeight inp.rect -
        (scaleOf inp - 1) * (12 * ((laneCount inp : ℚ) - 1)) := by
  have hcast : ((laneCount inp - 1 : ℕ) : ℚ) = (laneCount inp : ℚ) - 1 := by
    have := Nat.cast_sub (R := ℚ) h1
    simpa using this
  have hN : naturalTotal inp =
      (maxHeightsOf inp).sum + 12 * ((laneCount inp : ℚ) - 1) := by
    rw [naturalTotal, hcast]
  have hS : (scaledHeights inp).sum = (maxHeightsOf inp).sum * scaleOf inp := by
    rw [scaledHeights, sum_map_mul]
  have hNne : naturalTotal inp ≠ 0 := ne_of_gt h2
  rw [hS, scaleOf, if_pos h2, hN]
  rw [hN] at hNne
  field_simp
  ring

/-- Measurement for the exact-fill counterexample: wide constant-size
bubbles. -/
def fmWide : Measure ℕ := ⟨fun _ => 200, fun _ _ => 30⟩

/-- Two annotations at time 0 whose bubbles overlap, forcing two lanes. -/
def inpOverlap : PackInput ℕ :=
  ⟨fmWide, 100, ⟨800, 600, 0⟩, [(0, ⟨0, 0⟩), (1, ⟨0, 1⟩)]⟩

/-- The lane data of the two-lane counterexample run, evaluated in full:
two lanes of natural height 80 each, natural total `172`, available height
`520`. -/
theorem inpOverlap_lanes :
    laneCount inpOverlap = 2 ∧ naturalTotal inpOverlap = 172 ∧
    scaledHeights inpOverlap = [10400 / 43, 10400 / 43] := by
  have hr2 : List.range 2 = [0, 1] := by decide
  norm_num [pairsOf, lanesOf, itemsOf, sortedOf, sortByStart,
    insertByStart, precompute, maxBubbleWidth, availableWidth, inpOverlap,
    fmWide, placeAll, placeStep, firstFit, canFit,
    scaledHeights, maxHeightsOf, laneMaxHeights, listMaxD,
    laneCount, naturalTotal, scaleOf, availableHeight,
    hr2, List.filter_cons, List.sum_cons, List.sum_nil]

/-- C2 (counterexample to the claim as stated): on the two-lane input the
sum over lanes of (scaled height + spacing) minus the trailing spacing is
`21316/43 ≈ 495.7`, missing `available_height = 520` by `1044/43 ≈ 24.3` —
far beyond any floating-point tolerance. -/
theorem lane_fill_counterexample :
    availableHeight inpOverlap.rect -
      ((scaledHeights inpOverlap).sum +
        12 * ((laneCount inpOverlap : ℚ) - 1)) = 1044 / 43 := by
  obtain ⟨hL, _, hS⟩ := inpOverlap_lanes
  rw [hL, hS]
  norm_num [availableHeight, inpOverlap]

/-- Witness for C2 (amended) at the two-lane input. -/
theorem lane_fill_identity_witness :
    1 ≤ laneCount inpOverlap ∧ 0 < naturalTotal inpOverlap ∧
    ((scaledHeights inpOverlap).sum + 12 * ((laneCount inpOverlap : ℚ) - 1) =
      availableHeight inpOverlap.rect -
        (scaleOf inpOverlap - 1) * (12 * ((laneCount inpOverlap : ℚ) - 1))) := by
  obtain ⟨hL, hN, _⟩ := inpOverlap_lanes
  refine ⟨by rw [hL]; omega, by rw [hN]; norm_num, ?_⟩
  exact lane_fill_identity inpOverlap (by rw [hL]; omega) (by rw [hN]; norm_num)

/-! ## C8: unterminated-tag recovery

For a stream whose first `<think>` occurrence is never closed, every
non-whitespace character after the opening tag reaches the thinking sink, in
order — chunk boundaries only ever drop whitespace-only runs (which are
blank under the `strip()` guard).  The proof follows the consumed position
`n` through the stream `s`: before the tag is complete the splitter is
scanning with its buffer a segment `s[m..n)` ending at `n` and starting no
later than the tag; from `n ≥ i₀ + 7` on it is inside thinking with an
empty buffer and the thinking output covering `s[i₀+7..n)` up to
whitespace. -/

/-- The non-whitespace characters of a string, in order. -/
def filterNW (l : List Char) : List Char :=
  l.filter (fun c => !(isPySpace c))

theorem filterNW_append (a b : List Char) :
    filterNW (a ++ b) = filterNW a ++ filterNW b := by
  rw [filterNW, filterNW, filterNW, List.filter_append]

theorem filterNW_eq_nil_of_blank (l : List Char) (h : hasNonWS l = false) :
    filterNW l = [] := by
  rw [filterNW, List.filter_eq_nil_iff]
  intro c hc
  rw [hasNonWS] at h
  have := List.any_eq_false.1 h c hc
  simpa using this

/-- The segment `s[m..n)`. -/
def seg (s : List Char) (m n : ℕ) : List Char :=
  (s.drop m).take (n - m)

theorem seg_length (s : List Char) {m n : ℕ} (hm : m ≤ n)
    (hn : n ≤ s.length) : (seg s m n).length = n - m := by
  rw [seg, List.length_take, List.length_drop]
  omega

theorem seg_self (s : List Char) (n : ℕ) : seg s n n = [] := by
  rw [seg, Nat.sub_self, List.take_zero]

theorem seg_append (s : List Char) {m n n2 : ℕ} (h1 : m ≤ n) (h2 : n ≤ n2) :
    seg s m n ++ seg s n n2 = seg s m n2 := by
  rw [seg, seg, seg]
  have hsplit : n2 - m = (n - m) + (n2 - n) := by omega
  rw [hsplit, List.take_add]
  congr 1
  rw [List.drop_drop]
  congr 2
  omega

theorem seg_drop (s : List Char) (m n p : ℕ) :
    (seg s m n).drop p = seg s (m + p) n := by
  rw [seg, seg, List.drop_take, List.drop_drop, Nat.sub_sub]

theorem seg_take (s : List Char) {m n : ℕ} (p : ℕ) (h : p ≤ n - m) :
    (seg s m n).take p = seg s m (m + p) := by
  rw [seg, seg, List.take_take]
  congr 1
  omega

theorem head_lt_mem_seg {s : List Char} {j m q : ℕ}
    (hhead : (s.drop j).head? = some '<') (hm : m ≤ j) (hq : j < q) :
    '<' ∈ seg s m q := by
  rw [← seg_append s hm (le_of_lt hq)]
  apply List.mem_append_right
  rw [seg]
  cases hd : s.drop j with
  | nil => rw [hd] at hhead; cases hhead
  | cons c t =>
    rw [hd] at hhead
    simp only [List.head?_cons, Option.some.injEq] at hhead
    subst hhead
    have : 0 < q - j := by omega
    cases hqj : q - j with
    | zero => omega
    | succ k => simp

theorem isPrefixOf_of_seg {pat s : List Char} {q n : ℕ}
    (h : pat.isPrefixOf (seg s q n) = true) :
    pat.isPrefixOf (s.drop q) = true := by
  rw [List.isPrefixOf_iff_prefix] at h ⊢
  exact h.trans (List.take_prefix _ _)

theorem isPrefixOf_seg_of_le {pat s : List Char} {q n : ℕ}
    (h : pat.isPrefixOf (s.drop q) = true) (hlen : pat.length ≤ n - q) :
    pat.isPrefixOf (seg s q n) = true := by
  rw [List.isPrefixOf_iff_prefix] at h ⊢
  obtain ⟨t, ht⟩ := h
  rw [seg, ← ht, List.take_append_eq_append_take,
    List.take_of_length_le hlen]
  exact ⟨t.take (n - q - pat.length), rfl⟩

/-- A segment of the region after the opening tag is an infix of that
region. -/
theorem seg_infix_drop {s : List Char} {b n n2 : ℕ} (h : b ≤ n) :
    seg s n n2 <:+: s.drop b := by
  have h1 : seg s n n2 <+: s.drop n := List.take_prefix _ _
  have h2 : s.drop n <:+ s.drop b := by
    have : s.drop n = (s.drop b).drop (n - b) := by
      rw [List.drop_drop]
      congr 1
      omega
    rw [this]
    exact List.drop_suffix _ _
  exact List.infix_iff_prefix_suffix.2 ⟨s.drop n, h1, h2⟩

/-- Inside the thinking block with no closing tag anywhere after the
opening tag, one call flushes the whole buffered segment (if non-blank) to
the thinking sink and clears the buffer. -/
theorem insideStep {s : List Char} {i0 : ℕ}
    (hclose : findSub thinkClose (s.drop (i0 + 7)) = none)
    {fuel n n2 : ℕ} (main : List Char) (out : SplitOut)
    (hn : i0 + 7 ≤ n) (hfuel : 0 < fuel) :
    (splitGo fuel ⟨seg s n n2, true, main⟩ out).1.inside = true ∧
    (splitGo fuel ⟨seg s n n2, true, main⟩ out).1.buffer = [] ∧
    filterNW (concatAll (splitGo fuel ⟨seg s n n2, true, main⟩ out).2.think) =
      filterNW (concatAll out.think) ++ filterNW (seg s n n2) := by
  obtain ⟨f, rfl⟩ : ∃ f, fuel = f + 1 := ⟨fuel - 1, by omega⟩
  have hnotfound : findSub thinkClose (seg s n n2) = none := by
    cases hf : findSub thinkClose (seg s n n2) with
    | none => rfl
    | some q =>
      exfalso
      have h1 := (findSub_some_bound hf).1
      have h2 : thinkClose <+: (seg s n n2).drop q :=
        List.isPrefixOf_iff_prefix.1 h1
      have h3 : thinkClose <:+: seg s n n2 :=
        List.infix_iff_prefix_suffix.2 ⟨(seg s n n2).drop q, h2,
          List.drop_suffix _ _⟩
      have h4 : thinkClose <:+: s.drop (i0 + 7) :=
        h3.trans (seg_infix_drop hn)
      exact not_infix_of_findSub_none hclose h4
  have hres : splitGo (f + 1) ⟨seg s n n2, true, main⟩ out =
      (⟨[], true, main⟩,
        if hasNonWS (seg s n n2) then emitThink out (seg s n n2) else out) := by
    rw [splitGo]
    simp [hnotfound]
  rw [hres]
  by_cases hw : hasNonWS (seg s n n2)
  · rw [if_pos hw]
    refine ⟨rfl, rfl, ?_⟩
    show filterNW (concatAll (out.think ++ [seg s n n2])) = _
    rw [concatAll_append, filterNW_append]
    congr 1
    show filterNW (seg s n n2 ++ []) = filterNW (seg s n n2)
    rw [List.append_nil]
  · rw [if_neg hw]
    refine ⟨rfl, rfl, ?_⟩
    rw [filterNW_eq_nil_of_blank (seg s n n2) (by simpa using hw),
      List.append_nil]

theorem head_take_pos {l : List Char} {k : ℕ} (h : 0 < k) :
    (l.take k).head? = l.head? := by
  cases l with
  | nil => simp
  | cons c t =>
    cases k with
    | zero => omega
    | succ k2 => simp

/-- The scanning phase, with the first `<think>` occurrence of `s` at `i0`
and no `</think>` after it.  One call on the buffered segment `s[m..n)`
(`m` at or before the tag) either keeps scanning on a shorter trailing
segment — emitting nothing to the thinking sink — or recognises the tag and
moves inside thinking, the thinking output absorbing the non-blank part of
`s[i0+7..n)`. -/
theorem scanStep {s : List Char} {i0 : ℕ}
    (hopen : findSub thinkOpen s = some i0)
    (hclose : findSub thinkClose (s.drop (i0 + 7)) = none) :
    ∀ (fuel m n : ℕ) (main : List Char) (out : SplitOut),
      m ≤ i0 → m ≤ n → n ≤ s.length → n - m < fuel →
      (n < i0 + 7 ∧
        ∃ m2, m2 ≤ i0 ∧ m2 ≤ n ∧
          (splitGo fuel ⟨seg s m n, false, main⟩ out).1.buffer = seg s m2 n ∧
          (splitGo fuel ⟨seg s m n, false, main⟩ out).1.inside = false ∧
          (splitGo fuel ⟨seg s m n, false, main⟩ out).2.think = out.think) ∨
      (i0 + 7 ≤ n ∧
        (splitGo fuel ⟨seg s m n, false, main⟩ out).1.inside = true ∧
        (splitGo fuel ⟨seg s m n, false, main⟩ out).1.buffer = [] ∧
        filterNW
            (concatAll (splitGo fuel ⟨seg s m n, false, main⟩ out).2.think) =
          filterNW (concatAll out.think) ++ filterNW (seg s (i0 + 7) n)) := by
  have hI_pref : thinkOpen.isPrefixOf (s.drop i0) = true :=
    (findSub_some_bound hopen).1
  have hI_len : i0 + 7 ≤ s.length := by
    have := (findSub_some_bound hopen).2
    have h7 : thinkOpen.length = 7 := by decide
    omega
  have hI_head : (s.drop i0).head? = some '<' := by
    obtain ⟨t, ht⟩ := List.isPrefixOf_iff_prefix.1 hI_pref
    rw [← ht]
    rfl
  have hI_min : ∀ j, j < i0 → ¬thinkOpen.isPrefixOf (s.drop j) = true :=
    findSub_some_min hopen
  intro fuel
  induction fuel with
  | zero => intro m n main out _ _ _ hfu; omega
  | succ fuel ih =>
    intro m n main out hmi hmn hns hfu
    have hseglen : (seg s m n).length = n - m := seg_length s hmn hns
    cases hf : findLt (seg s m n) with
    | none =>
      have hni0 : n ≤ i0 ∨ '<' ∉ seg s m n := Or.inr (findLt_none_not_mem hf)
      have hn_le : n ≤ i0 := by
        by_contra hgt
        push_neg at hgt
        exact findLt_none_not_mem hf (head_lt_mem_seg hI_head hmi hgt)
      by_cases hempty : seg s m n = []
      · have hres :
            splitGo (fuel + 1) ⟨seg s m n, false, main⟩ out =
              (⟨seg s m n, false, main⟩, out) := by
          rw [splitGo]
          simp only [hempty]
          rfl
        left
        exact ⟨by omega, m, hmi, hmn, by rw [hres, hempty], by rw [hres],
          by rw [hres]⟩
      · have hres :
            splitGo (fuel + 1) ⟨seg s m n, false, main⟩ out =
              (⟨[], false, (flushMain false (main ++ seg s m n)).1⟩,
                applyFlush out (flushMain false (main ++ seg s m n)).2) := by
          rw [splitGo]
          simp [hf, hempty]
        left
        refine ⟨by omega, n, hn_le, le_refl n, ?_, by rw [hres], ?_⟩
        · rw [hres, seg_self]
        · rw [hres]
          exact applyFlush_think _ _
    | some p =>
      have hplt : p < n - m := by
        have := findLt_some_lt hf
        omega
      have hq_head : (s.drop (m + p)).head? = some '<' := by
        have h1 := findLt_drop_head hf
        rw [seg_drop] at h1
        rw [← head_take_pos (l := s.drop (m + p)) (k := n - (m + p)) (by omega)]
        exact h1
      have hq_le : m + p ≤ i0 := by
        by_contra hgt
        push_neg at hgt
        have hmem : '<' ∈ (seg s m n).take p := by
          rw [seg_take s p (by omega)]
          exact head_lt_mem_seg hI_head hmi hgt
        exact findLt_take_not_mem hf hmem
      by_cases h7 : 7 ≤ n - (m + p)
      · by_cases hqi : m + p = i0
        · -- the tag itself: enter thinking
          have hpref2 : thinkOpen.isPrefixOf (seg s (m + p) n) = true := by
            apply isPrefixOf_seg_of_le
            · rw [hqi]
              exact hI_pref
            · have h7l : thinkOpen.length = 7 := by decide
              omega
          have hcond : (decide (7 ≤ (seg s (m + p) n).length) &&
              thinkOpen.isPrefixOf (seg s (m + p) n)) = true := by
            rw [Bool.and_eq_true]
            refine ⟨decide_eq_true ?_, hpref2⟩
            rw [seg_length s (by omega) hns]
            exact h7
          have hres :
              splitGo (fuel + 1) ⟨seg s m n, false, main⟩ out =
                splitGo fuel
                  ⟨seg s (m + p + 7) n, true,
                    (beforeFlush main ((seg s m n).take p) out).1⟩
                  (beforeFlush main ((seg s m n).take p) out).2 := by
            rw [splitGo]
            simp only [hf, seg_drop, hcond, Bool.false_eq_true, if_false,
              if_true]
          right
          have hins := @insideStep s i0 hclose fuel (m + p + 7) n
            ((beforeFlush main ((seg s m n).take p) out).1)
            ((beforeFlush main ((seg s m n).take p) out).2)
            (by omega) (show 0 < fuel by omega)
          rw [hqi] at hres
          refine ⟨by omega, ?_, ?_, ?_⟩
          · rw [hres, ← hqi]
            exact hins.1
          · rw [hres, ← hqi]
            exact hins.2.1
          · rw [hres, ← hqi]
            rw [hins.2.2, beforeFlush_think]
        · -- an earlier '<': consumed as literal text
          have hq_lt : m + p < i0 := by omega
          have hnotpref : thinkOpen.isPrefixOf (seg s (m + p) n) = false := by
            cases hp2 : thinkOpen.isPrefixOf (seg s (m + p) n) with
            | false => rfl
            | true =>
              exact absurd (isPrefixOf_of_seg hp2) (hI_min _ hq_lt)
          have hcond : (decide (7 ≤ (seg s (m + p) n).length) &&
              thinkOpen.isPrefixOf (seg s (m + p) n)) = false := by
            rw [hnotpref, Bool.and_false]
          have hlen2 : ¬((seg s (m + p) n).length < 7) := by
            rw [seg_length s (by omega) hns]
            omega
          have hres :
              splitGo (fuel + 1) ⟨seg s m n, false, main⟩ out =
                splitGo fuel
                  ⟨seg s (m + p + 1) n, false,
                    (beforeFlush main ((seg s m n).take p) out).1 ++ ['<']⟩
                  (beforeFlush main ((seg s m n).take p) out).2 := by
            rw [splitGo]
            simp only [hf, seg_drop, hcond, Bool.false_eq_true, if_false,
              hlen2]
          rw [hres]
          have := ih (m + p + 1) n
            ((beforeFlush main ((seg s m n).take p) out).1 ++ ['<'])
            ((beforeFlush main ((seg s m n).take p) out).2)
            (by omega) (by omega) hns (by omega)
          rcases this with ⟨h1, m2, h2, h3, h4, h5, h6⟩ | ⟨h1, h2, h3, h4⟩
          · left
            exact ⟨h1, m2, h2, h3, h4, h5, by rw [h6, beforeFlush_think]⟩
          · right
            refine ⟨h1, h2, h3, ?_⟩
            rw [h4, beforeFlush_think]
      · -- fewer than 7 characters after the '<': retain and wait
        have hcond : (decide (7 ≤ (seg s (m + p) n).length) &&
            thinkOpen.isPrefixOf (seg s (m + p) n)) = false := by
          have : (decide (7 ≤ (seg s (m + p) n).length)) = false := by
            rw [decide_eq_false_iff_not]
            rw [seg_length s (by omega) hns]
            omega
          rw [this, Bool.false_and]
        have hlen2 : (seg s (m + p) n).length < 7 := by
          rw [seg_length s (by omega) hns]
          omega
        have hres :
            splitGo (fuel + 1) ⟨seg s m n, false, main⟩ out =
              (⟨seg s (m + p) n, false,
                  (beforeFlush main ((seg s m n).take p) out).1⟩,
                (beforeFlush main ((seg s m n).take p) out).2) := by
          rw [splitGo]
          simp only [hf, seg_drop, hcond, Bool.false_eq_true, if_false,
            hlen2, if_true]
        left
        refine ⟨by omega, m + p, hq_le, by omega, by rw [hres], by rw [hres],
          ?_⟩
        rw [hres]
        exact beforeFlush_think _ _ _

theorem seg_to_end (s : List Char) (k : ℕ) : seg s k s.length = s.drop k := by
  rw [seg]
  exact List.take_of_length_le (by rw [List.length_drop])

/-- The phase invariant threaded through the chunk fold for C8. -/
theorem c8_aux {s : List Char} {i0 : ℕ}
    (hopen : findSub thinkOpen s = some i0)
    (hclose : findSub thinkClose (s.drop (i0 + 7)) = none) :
    ∀ (chunks : List (List Char)) (n : ℕ) (st : SplitState) (out : SplitOut),
      n ≤ s.length → concatAll chunks = s.drop n →
      ((n < i0 + 7 ∧ st.inside = false ∧ out.think = [] ∧
          ∃ m, m ≤ i0 ∧ m ≤ n ∧ st.buffer = seg s m n) ∨
        (i0 + 7 ≤ n ∧ st.inside = true ∧ st.buffer = [] ∧
          filterNW (concatAll out.think) = filterNW (seg s (i0 + 7) n))) →
      filterNW (concatAll
          (chunks.foldl (fun p c => processChunk p.1 p.2 c) (st, out)).2.think) =
        filterNW (seg s (i0 + 7) s.length) := by
  have hI_len : i0 + 7 ≤ s.length := by
    have := (findSub_some_bound hopen).2
    have h7 : thinkOpen.length = 7 := by decide
    omega
  intro chunks
  induction chunks with
  | nil =>
    intro n st out hns hjoin hinv
    rw [concatAll_nil] at hjoin
    have hnL : n = s.length := by
      have hl := congrArg List.length hjoin
      rw [List.length_drop] at hl
      simp at hl
      omega
    subst hnL
    rcases hinv with ⟨h1, _⟩ | ⟨_, _, _, h4⟩
    · omega
    · simpa using h4
  | cons c rest ih =>
    intro n st out hns hjoin hinv
    rw [concatAll_cons] at hjoin
    have hlen2 : c.length + (concatAll rest).length = s.length - n := by
      have hl := congrArg List.length hjoin
      rw [List.length_drop] at hl
      simp only [List.length_append] at hl
      omega
    have hn2 : n + c.length ≤ s.length := by omega
    have hcseg : c = seg s n (n + c.length) := by
      have he : n + c.length - n = c.length := by omega
      rw [seg, he, ← hjoin, List.take_left]
    have hrest : concatAll rest = s.drop (n + c.length) := by
      have h1 : (s.drop n).drop c.length = concatAll rest := by
        rw [← hjoin, List.drop_left]
      rw [← h1, List.drop_drop]
    simp only [List.foldl_cons]
    rcases hinv with ⟨hlt, hin, hth, m, hm1, hm2, hbuf⟩ | ⟨hge, hin, hbuf, hft⟩
    · -- scanning phase
      have hpc : processChunk st out c =
          splitGo ((seg s m n).length + c.length + 1)
            ⟨seg s m (n + c.length), false, st.main⟩ out := by
        rw [processChunk, hbuf, hin, hcseg, seg_append s hm2 (by omega)]
        rw [← hcseg]
      have hsc := scanStep hopen hclose
        ((seg s m n).length + c.length + 1) m (n + c.length) st.main out
        hm1 (by omega) hn2
        (by rw [seg_length s hm2 hns]; omega)
      rw [← hpc] at hsc
      rcases hsc with ⟨h1, m2, h2, h3, h4, h5, h6⟩ | ⟨h1, h2, h3, h4⟩
      · rcases hp : processChunk st out c with ⟨st2, out2⟩
        rw [hp] at h4 h5 h6
        apply ih (n + c.length) st2 out2 hn2 hrest
        exact Or.inl ⟨h1, h5, by rw [h6, hth], m2, h2, h3, h4⟩
      · rcases hp : processChunk st out c with ⟨st2, out2⟩
        rw [hp] at h2 h3 h4
        apply ih (n + c.length) st2 out2 hn2 hrest
        refine Or.inr ⟨h1, h2, h3, ?_⟩
        rw [h4, hth]
        rfl
    · -- inside-thinking phase
      have hpc : processChunk st out c =
          splitGo (st.buffer.length + c.length + 1)
            ⟨seg s n (n + c.length), true, st.main⟩ out := by
        rw [processChunk, hbuf, hin, ← hcseg]
        rw [List.nil_append]
      have hins := @insideStep s i0 hclose
        (st.buffer.length + c.length + 1) n (n + c.length) st.main out hge
        (by omega)
      rw [← hpc] at hins
      rcases hp : processChunk st out c with ⟨st2, out2⟩
      rw [hp] at hins
      apply ih (n + c.length) st2 out2 hn2 hrest
      refine Or.inr ⟨by omega, hins.1, hins.2.1, ?_⟩
      rw [hins.2.2, hft, ← filterNW_append, seg_append s hge (by omega)]

/-- C8: for every chunk sequence whose stream contains an opening `<think>`
(first occurrence at `i0`) with no matching `</think>` anywhere after it,
every non-whitespace character after the opening tag is emitted to the
thinking sink, in order — the unterminated thinking content is not silently
dropped (whitespace-only runs caught alone between two chunk boundaries are
the only characters the `strip()` guards can drop, and they are blank).
The embedded splitter is a total function, so no call can raise. -/
theorem unterminated_think_recovery (chunks : List (List Char)) (i0 : ℕ)
    (hopen : findSub thinkOpen (concatAll chunks) = some i0)
    (hclose : findSub thinkClose ((concatAll chunks).drop (i0 + 7)) = none) :
    filterNW (concatAll (runSplitter chunks).think) =
      filterNW ((concatAll chunks).drop (i0 + 7)) := by
  have h := c8_aux hopen hclose chunks 0 initState initOut
    (Nat.zero_le _) (by rw [List.drop_zero])
    (Or.inl ⟨by omega, rfl, rfl, 0, Nat.zero_le _, le_refl 0,
      by rw [seg_self]; rfl⟩)
  rw [runSplitter, flushEnd_think, processChunks, h, seg_to_end]

/-- Witness for C8 at the spec's own truncated-stream scenario: chunks
`["Hello <th", "ink>reasoning"]` leave `<think>` (at position 6) unclosed
and `"reasoning"` reaches the thinking sink. -/
theorem unterminated_think_recovery_witness :
    findSub thinkOpen
        (concatAll ["Hello <th".data, "ink>reasoning".data]) = some 6 ∧
    findSub thinkClose
        ((concatAll ["Hello <th".data, "ink>reasoning".data]).drop (6 + 7)) =
      none ∧
    filterNW
        (concatAll (runSplitter ["Hello <th".data, "ink>reasoning".data]).think) =
      filterNW ((concatAll ["Hello <th".data, "ink>reasoning".data]).drop (6 + 7)) :=
  ⟨by decide, by decide,
    unterminated_think_recovery ["Hello <th".data, "ink>reasoning".data] 6
      (by decide) (by decide)⟩

end Cruise
